import Mathlib

/-!
Verification development for the module-resolution core of ClickableRequires
(`plugin.py`).  The resolution algorithm is embedded shallowly:

* filesystem paths are strings over the POSIX `os.path` conventions (the
  plugin calls `os.path.normpath`, `os.path.join`, `os.path.split`,
  `os.path.splitdrive`; the POSIX implementations are translated here at the
  character-list level, faithful to the CPython `posixpath` source);
* the filesystem is a value `FS` giving the `os.path.isfile` predicate and,
  for each path, the result of `json.load` on the file found there;
* plugin settings (`resolve_extensions`) are a value `Settings`;
* Python `None`-or-string values are `Option String`; Python truthiness of
  such a value is `pyTruthy`;
* the only exception the resolution code can raise on the modelled inputs is
  `json.JSONDecodeError` from `json.load` in `load_as_directory`; fallible
  functions therefore return `Except PyErr (Option String)`.
-/

/-! ## POSIX path primitives (character level) -/

/-- Python `str.split('/')`: grouping of a character list at `'/'`
separators.  Adjacent separators yield empty groups, as in Python. -/
def splitSlash : List Char → List (List Char)
  | [] => [[]]
  | c :: rest =>
    match splitSlash rest with
    | [] => [[]]
    | g :: gs => if c = '/' then [] :: g :: gs else (c :: g) :: gs

/-- Python `'/'.join(groups)`. -/
def pyJoinStr : List (List Char) → List Char
  | [] => []
  | [g] => g
  | g :: rest => g ++ '/' :: pyJoinStr rest

/-- A run of `k` separator characters. -/
def slashes (k : Nat) : List Char := List.replicate k '/'

/-- The `initial_slashes` computation of `posixpath.normpath`: 1 for an
absolute path, 2 for the POSIX-special double-slash prefix, 0 otherwise. -/
def initSlashes (l : List Char) : Nat :=
  if l.take 1 = ['/'] then
    (if l.take 2 = ['/', '/'] ∧ ¬ (l.take 3 = ['/', '/', '/']) then 2 else 1)
  else 0

/-- One step of the component scan of `posixpath.normpath`: drop empty and
`'.'` components, push ordinary components, and let `'..'` either survive
(at the front of a relative path or after a surviving `'..'`) or pop the
previous component. -/
def normStep (k : Nat) (acc : List (List Char)) (comp : List Char) : List (List Char) :=
  if comp = [] ∨ comp = ['.'] then acc
  else if comp ≠ ['.', '.'] ∨ (k = 0 ∧ acc = []) ∨ acc.getLast? = some ['.', '.'] then
    acc ++ [comp]
  else acc.dropLast

/-- The surviving components of `posixpath.normpath`. -/
def normComps (k : Nat) (l : List Char) : List (List Char) :=
  (splitSlash l).foldl (normStep k) []

/-- Reassembly step of `posixpath.normpath`: the slash prefix followed by the
joined components, with `'.'` for the empty relative path. -/
def renderNF (k : Nat) (nc : List (List Char)) : List Char :=
  let out := slashes k ++ pyJoinStr nc
  if out = [] then ['.'] else out

/-- `posixpath.normpath` over character lists, translated from the CPython
source (empty-path guard, `initial_slashes`, component scan, reassembly). -/
def normChars (l : List Char) : List Char :=
  if l = [] then ['.']
  else renderNF (initSlashes l) (normComps (initSlashes l) l)

/-- `posixpath.join` on two character lists: an absolute second operand
replaces the first, otherwise the operands are concatenated with a separator
inserted unless one is already present (or the first operand is empty). -/
def joinTwo (a b : List Char) : List Char :=
  if b.head? = some '/' then b
  else if a = [] ∨ a.getLast? = some '/' then a ++ b
  else a ++ '/' :: b

/-- `posixpath.split` over character lists: the tail is everything after the
last separator; the head is everything up to it, right-stripped of
separators unless it consists only of separators. -/
def posixSplit (l : List Char) : List Char × List Char :=
  let r := l.reverse
  let tail := (r.takeWhile (fun c => ¬ (c = '/'))).reverse
  let headRaw := (r.dropWhile (fun c => ¬ (c = '/'))).reverse
  let head :=
    if headRaw = [] ∨ headRaw.all (fun c => c = '/') then headRaw
    else (headRaw.reverse.dropWhile (fun c => c = '/')).reverse
  (head, tail)

/-- `posixpath.splitdrive`: POSIX paths have no drive, so the drive part is
always empty (the CPython source returns `p[:0], p`). -/
def posixSplitdrive (p : List Char) : List Char × List Char := ([], p)

/-- The `while 1:` loop of `split_path`, with an explicit fuel argument so
that the recursion is structural.  Each iteration either stops (empty
folder) or recurses on the strictly shorter head of `posixSplit`, so any
fuel above the length of the input gives the loop's value. -/
def splitLoopFuel : Nat → List Char → List (List Char)
  | 0, _ => []
  | fuel + 1, l =>
    if (posixSplit l).2 = [] then
      (if (posixSplit l).1 = [] then [] else [(posixSplit l).1])
    else (posixSplit l).2 :: splitLoopFuel fuel (posixSplit l).1

/-- The `while 1:` loop of `split_path`: the list of folders appended, in
append order (deepest first). -/
def splitLoopAux (l : List Char) : List (List Char) :=
  splitLoopFuel (l.length + 1) l

/-- The post-normalization part of `split_path`: initial
`os.path.split`, then the append loop, then the reversal. -/
def splitFolders (q : List Char) : List (List Char) :=
  ((posixSplit q).2 :: splitLoopAux (posixSplit q).1).reverse

/-- `split_path` over character lists: normalize, split off the (always
empty, on POSIX) drive, split and loop, reverse, and prepend the drive when
it is non-empty. -/
def split_path_chars (start : List Char) : List (List Char) :=
  let path0 := normChars start
  let drive := (posixSplitdrive path0).1
  let folders := splitFolders (posixSplitdrive path0).2
  if drive = [] then folders else drive :: folders

/-! ## String-level wrappers -/

/-- `os.path.normpath` on strings (POSIX). -/
def pyNormpath (s : String) : String := ⟨normChars s.toList⟩

/-- `os.path.join` on two strings (POSIX). -/
def pyJoin (a b : String) : String := ⟨joinTwo a.toList b.toList⟩

/-- `os.path.join(*parts)` for a non-empty argument list: left fold of the
binary join. -/
def pyJoinList (l : List String) : String :=
  match l with
  | [] => ""
  | h :: t => t.foldl pyJoin h

/-- Python `str.startswith`. -/
def pyStartswith (s p : String) : Bool := p.toList.isPrefixOf s.toList

/-- Python truthiness of an optional string: `None` and `''` are falsy. -/
def pyTruthy : Option String → Bool
  | none => false
  | some s => s ≠ ""

/-- The source's `split_path` (drive, ancestor folders, final segment). -/
def split_path (start : String) : List String :=
  (split_path_chars start.toList).map (fun l => ⟨l⟩)

/-! ## Filesystem and settings model -/

/-- Result of `json.load` on a manifest file: either a decode error, or a
JSON object whose `main` field is absent or a string.  (Manifests whose
`main` field has a non-string JSON type are outside the model; the plugin
would pass such a value to `os.path.join` and fail, and the spec only
describes string-valued `main` fields.) -/
inductive JsonContent where
  | malformed : JsonContent
  | obj : Option String → JsonContent
deriving DecidableEq

/-- The only exception resolution can raise on modelled inputs:
`json.JSONDecodeError` escaping from `json.load` in `load_as_directory`. -/
inductive PyErr where
  | jsonDecodeError : PyErr
deriving DecidableEq

/-- A snapshot of the filesystem: the `os.path.isfile` predicate, and the
outcome of `json.load` for the file at each path (consulted only for paths
whose `isfile` is true). -/
structure FS where
  isfile : String → Bool
  json : String → JsonContent

/-- The plugin settings consulted during resolution
(`get_setting('resolve_extensions')`). -/
structure Settings where
  resolve_extensions : List String

/-! ## The resolution functions of `plugin.py` -/

/-- `returnIfFile(path, file=None)`: `None` for a falsy path, otherwise the
(optionally joined) path exactly when it names an existing regular file. -/
def returnIfFile (path : Option String) (file : Option String) (fs : FS) : Option String :=
  if ¬ pyTruthy path then none
  else
    let p := path.getD ""
    let f := if pyTruthy file then pyJoin p (file.getD "") else p
    if fs.isfile f then some f else none

/-- The fixed list of core module names (`CORE_MODULES`). -/
def CORE_MODULES : List String :=
  ["assert", "buffer", "child_process", "cluster", "crypto", "dgram", "dns",
   "domain", "events", "fs", "http", "https", "net", "os", "path",
   "punycode", "querystring", "readline", "repl", "stream",
   "string_decoder", "tls", "tty", "url", "util", "v8", "vm", "zlib"]

/-- `LOAD_AS_FILE`: the path itself first, then each configured extension in
order.  (`returnIfFile` never returns an empty string on a truthy input, so
matching on `Option` coincides with Python's truthiness test.) -/
def load_as_file (path : String) (ctx : Settings) (fs : FS) : Option String :=
  match returnIfFile (some path) none fs with
  | some file => some file
  | none =>
    ctx.resolve_extensions.findSome? fun extension =>
      returnIfFile (some (path ++ extension)) none fs

/-- `LOAD_INDEX`: `path/index + extension` for each configured extension in
order. -/
def load_index (path : String) (ctx : Settings) (fs : FS) : Option String :=
  ctx.resolve_extensions.findSome? fun extension =>
    returnIfFile (some path) (some ("index" ++ extension)) fs

/-- `LOAD_AS_DIRECTORY`: if `path/package.json` is a file, parse it (a decode
error propagates), read `main` with default `"index.js"`, and try the entry
as a file then as an index directory; with no manifest, go straight to the
index search. -/
def load_as_directory (path : String) (ctx : Settings) (fs : FS) : Except PyErr (Option String) :=
  match returnIfFile (some path) (some "package.json") fs with
  | some package_path =>
    match fs.json package_path with
    | JsonContent.malformed => Except.error PyErr.jsonDecodeError
    | JsonContent.obj main_field =>
      let main := main_field.getD "index.js"
      let main_path := pyJoin path main
      Except.ok ((load_as_file main_path ctx fs).orElse fun _ => load_index main_path ctx fs)
  | none => Except.ok (load_index path ctx fs)

/-- CPython `is` between a string computed by path splitting and the literal
`'node_modules'`.  `is` compares object identity, and the segments produced
by `split_path` are fresh strings allocated by `os.path.split` slicing,
never the interned literal, so the comparison is false on every input the
plugin can produce (CPython even warns: `SyntaxWarning: "is" with a literal`). -/
def pyStringIs (_s _lit : String) : Bool := false

/-- The `while i >= 0:` loop of `node_modules_paths`, indexed by `i`. -/
def nmAux (parts : List String) : Nat → List String
  | 0 =>
    if pyStringIs (parts.getD 0 "") "node_modules" then []
    else [pyJoinList (parts.take 1 ++ ["node_modules"])]
  | i + 1 =>
    (if pyStringIs (parts.getD (i + 1) "") "node_modules" then []
     else [pyJoinList (parts.take (i + 2) ++ ["node_modules"])]) ++ nmAux parts i

/-- `NODE_MODULES_PATHS`: candidate `node_modules` directories from the
deepest prefix of `split_path start` outward. -/
def node_modules_paths (start : String) : List String :=
  let parts := split_path start
  match parts with
  | [] => []
  | _ :: _ => nmAux parts (parts.length - 1)

/-- The `for dir in dirs:` loop of `load_node_modules`. -/
def lnm_loop (module : String) (ctx : Settings) (fs : FS) : List String → Except PyErr (Option String)
  | [] => Except.ok none
  | dir :: rest =>
    let path := pyJoin dir module
    match load_as_file path ctx fs with
    | some file => Except.ok (some file)
    | none =>
      match load_as_directory path ctx fs with
      | Except.error e => Except.error e
      | Except.ok (some file) => Except.ok (some file)
      | Except.ok none => lnm_loop module ctx fs rest

/-- `LOAD_NODE_MODULES`: first success of file-then-directory loading over
the enumerated candidate directories. -/
def load_node_modules (module start : String) (ctx : Settings) (fs : FS) : Except PyErr (Option String) :=
  lnm_loop module ctx fs (node_modules_paths start)

/-- `find_require_module`: core modules short-circuit; a specifier starting
with `'.'` is joined to the requesting directory, normalized, and loaded as
a file then as a directory; everything else goes through the `node_modules`
search. -/
def find_require_module (module file_path : String) (ctx : Settings) (fs : FS) : Except PyErr (Option String) :=
  if module ∈ CORE_MODULES then Except.ok (some module)
  else if pyStartswith module "." then
    let path := pyNormpath (pyJoin file_path module)
    match load_as_file path ctx fs with
    | some file => Except.ok (some file)
    | none => load_as_directory path ctx fs
  else load_node_modules module file_path ctx fs

/-- The inner `for extension in webpack_extensions:` loop of
`find_import_module` for a fixed alias root folder. -/
def import_ext_loop (module folder_path : String) (fs : FS) : List String → Option String
  | [] => none
  | extension :: rest =>
    match
      (returnIfFile (some (pyJoin folder_path module)) none fs).orElse fun _ =>
        (returnIfFile (some (pyJoin folder_path (module ++ extension))) none fs).orElse fun _ =>
          returnIfFile (some (pyJoin (pyJoin folder_path module) ("index" ++ extension))) none fs
    with
    | some file => some file
    | none => import_ext_loop module folder_path fs rest

/-- The outer `for root in webpack_modules:` loop of `find_import_module`. -/
def import_root_loop (module project_path : String) (exts : List String) (fs : FS) : List String → Option String
  | [] => none
  | root :: rest =>
    match import_ext_loop module (pyJoin project_path root) fs exts with
    | some file => some file
    | none => import_root_loop module project_path exts fs rest

/-- `find_import_module`: nothing with a falsy alias-roots configuration
(`None` and the empty list are both modelled as `[]`), otherwise the nested
roots-outer, extensions-inner search. -/
def find_import_module (module project_path : String) (webpack_modules webpack_extensions : List String) (fs : FS) : Option String :=
  if webpack_modules = [] then none
  else import_root_loop module project_path webpack_extensions fs webpack_modules

/-- `find_module`: primary resolution, then — whenever the primary result is
falsy or does not name an existing file — the bundler-alias fallback, and a
final `returnIfFile` filter.  `webpack_resolve_extensions` falls back to the
`resolve_extensions` setting when falsy (Python `or`). -/
def find_module (module file_path project_path : String) (webpack_modules webpack_resolve_extensions : List String) (ctx : Settings) (fs : FS) : Except PyErr (Option String) :=
  match find_require_module module file_path ctx fs with
  | Except.error e => Except.error e
  | Except.ok m =>
    let m2 :=
      if ¬ pyTruthy m ∨ ¬ pyTruthy (returnIfFile m none fs) then
        find_import_module module project_path webpack_modules
          (if webpack_resolve_extensions = [] then ctx.resolve_extensions
           else webpack_resolve_extensions) fs
      else m
    Except.ok (returnIfFile m2 none fs)

/-- The default extension configuration (`.js`, `.json`, `.node`). -/
def ctx0 : Settings := ⟨[".js", ".json", ".node"]⟩

/-- Modelled from the spec: the relative branch of the top-level resolver as
§4.8 of the specification words it for specifiers that start with `.` or are
filesystem-absolute — normalize the join of requesting directory and
specifier, then try file loading and directory loading.  Stated separately
so the code's actual dispatch can be compared against it. -/
def relative_branch_spec (module file_path : String) (ctx : Settings) (fs : FS) : Except PyErr (Option String) :=
  let path := pyNormpath (pyJoin file_path module)
  match load_as_file path ctx fs with
  | some file => Except.ok (some file)
  | none => load_as_directory path ctx fs

/-! ## Basic helper lemmas -/

lemma string_eq_iff {a b : String} : a = b ↔ a.toList = b.toList := by
  cases a; cases b; simp [String.toList, String.ext_iff]

lemma string_ne_empty_iff {a : String} : a ≠ "" ↔ a.toList ≠ [] := by
  rw [ne_eq, string_eq_iff]; rfl

lemma pyTruthy_some {s : String} (h : s ≠ "") : pyTruthy (some s) = true := by
  simp [pyTruthy, h]

lemma pyJoin_toList (a b : String) : (pyJoin a b).toList = joinTwo a.toList b.toList := rfl

lemma joinTwo_ne_nil {a b : List Char} (ha : a ≠ []) : joinTwo a b ≠ [] := by
  unfold joinTwo
  split
  · rename_i h
    intro hb; subst hb; simp at h
  · split
    · simpa using fun h _ => ha h
    · simp

lemma pyJoin_ne_empty {a : String} (b : String) (ha : a ≠ "") : pyJoin a b ≠ "" := by
  rw [string_ne_empty_iff] at ha ⊢
  exact joinTwo_ne_nil ha

lemma returnIfFile_none (file : Option String) (fs : FS) : returnIfFile none file fs = none := rfl

lemma returnIfFile_some_eq {p : String} (file : Option String) (fs : FS) (hp : p ≠ "") :
    returnIfFile (some p) file fs =
      (if fs.isfile (if pyTruthy file then pyJoin p (file.getD "") else p) then
        some (if pyTruthy file then pyJoin p (file.getD "") else p) else none) := by
  unfold returnIfFile
  simp [pyTruthy_some hp]

lemma returnIfFile_isfile {path file : Option String} {fs : FS} {q : String}
    (h : returnIfFile path file fs = some q) : fs.isfile q = true := by
  unfold returnIfFile at h
  split at h
  · exact absurd h (by simp)
  · dsimp only at h
    split at h <;> split at h <;>
      first
        | (rename_i hf; cases h; exact hf)
        | exact absurd h (by simp)

lemma load_as_file_exact {path : String} {ctx : Settings} {fs : FS}
    (hne : path ≠ "") (hfile : fs.isfile path = true) :
    load_as_file path ctx fs = some path := by
  unfold load_as_file
  rw [returnIfFile_some_eq none fs hne]
  simp [pyTruthy, hfile]

/-! ## Claim C2: malformed versus missing manifest -/

/-- C2: when `path/package.json` exists but its contents are not valid JSON,
`load_as_directory` produces the distinct parse-error outcome (never an `ok`
result, so in particular not a silent not-found); when `path/package.json`
is missing it proceeds to index resolution with no error. -/
theorem load_as_directory_manifest_outcomes (path : String) (ctx : Settings) (fs : FS)
    (hne : path ≠ "") :
    (fs.isfile (pyJoin path "package.json") = true →
      fs.json (pyJoin path "package.json") = JsonContent.malformed →
      load_as_directory path ctx fs = Except.error PyErr.jsonDecodeError ∧
      ∀ r : Option String, load_as_directory path ctx fs ≠ Except.ok r) ∧
    (fs.isfile (pyJoin path "package.json") = false →
      load_as_directory path ctx fs = Except.ok (load_index path ctx fs)) := by
  have hrif := returnIfFile_some_eq (some "package.json") fs hne
  have htr : pyTruthy (some "package.json") = true := by decide
  constructor
  · intro hfile hmal
    have : load_as_directory path ctx fs = Except.error PyErr.jsonDecodeError := by
      unfold load_as_directory
      rw [hrif]
      simp only [htr, if_true, Option.getD_some, hfile, if_pos rfl, hmal]
    exact ⟨this, fun r => by rw [this]; exact fun h => Except.noConfusion h⟩
  · intro hfile
    unfold load_as_directory
    rw [hrif]
    simp only [htr, if_true, Option.getD_some, hfile]
    simp

/-- Filesystem used by the C2 witness: a single malformed manifest. -/
def fsC2m : FS := ⟨fun p => p == "/d/package.json", fun _ => JsonContent.malformed⟩

/-- Filesystem used by the C2 witness: no files at all. -/
def fsC2e : FS := ⟨fun _ => false, fun _ => JsonContent.obj none⟩

/-- Witness for C2 at concrete inputs: a malformed manifest at `/d` yields
the parse error, and a missing manifest yields plain index resolution. -/
theorem load_as_directory_manifest_outcomes_witness :
    (load_as_directory "/d" ctx0 fsC2m = Except.error PyErr.jsonDecodeError) ∧
    (load_as_directory "/d" ctx0 fsC2e = Except.ok (load_index "/d" ctx0 fsC2e)) :=
  ⟨((load_as_directory_manifest_outcomes "/d" ctx0 fsC2m (by decide)).1 (by rfl) (by rfl)).1,
   (load_as_directory_manifest_outcomes "/d" ctx0 fsC2e (by decide)).2 (by rfl)⟩

/-! ## Claim C4: extension-less exact match wins in `load_as_file` -/

/-- C4: `load_as_file` tries the unmodified candidate before any
extension-appended variant, so whenever the extension-less file exists (in
particular when an extension-appended file exists alongside it) the
extension-less path is returned. -/
theorem load_as_file_exact_match_wins (path : String) (ctx : Settings) (fs : FS)
    (hne : path ≠ "") (hfile : fs.isfile path = true) :
    load_as_file path ctx fs = some path :=
  load_as_file_exact hne hfile

/-- Filesystem used by the C4 witness: both `/d/foo` and `/d/foo.js` exist. -/
def fsC4 : FS := ⟨fun p => p == "/d/foo" || p == "/d/foo.js", fun _ => JsonContent.obj none⟩

/-- Witness for C4: with `/d/foo` and `/d/foo.js` both present, resolving the
candidate `/d/foo` returns the extension-less file. -/
theorem load_as_file_exact_match_wins_witness :
    load_as_file "/d/foo" ctx0 fsC4 = some "/d/foo" :=
  load_as_file_exact_match_wins "/d/foo" ctx0 fsC4 (by decide) (by rfl)

/-! ## Claim C5: manifest entry takes precedence over the index file -/

/-- C5: with a parsed manifest at `dir` declaring entry `main`, directory
resolution returns `join(dir, main)` whenever that candidate is an existing
file — regardless of any `dir/index.js` — and only when file-resolution of
the entry fails does it fall back to index resolution at the entry path
(never at `dir` itself). -/
theorem load_as_directory_manifest_precedence (dir main : String) (ctx : Settings) (fs : FS)
    (hdir : dir ≠ "")
    (hpkg : fs.isfile (pyJoin dir "package.json") = true)
    (hjson : fs.json (pyJoin dir "package.json") = JsonContent.obj (some main)) :
    (fs.isfile (pyJoin dir main) = true →
      load_as_directory dir ctx fs = Except.ok (some (pyJoin dir main))) ∧
    (load_as_file (pyJoin dir main) ctx fs = none →
      load_as_directory dir ctx fs = Except.ok (load_index (pyJoin dir main) ctx fs)) := by
  have hrif := returnIfFile_some_eq (some "package.json") fs hdir
  have htr : pyTruthy (some "package.json") = true := by decide
  constructor
  · intro hentry
    unfold load_as_directory
    rw [hrif]
    simp only [htr, if_true, Option.getD_some, hpkg, if_pos rfl, hjson]
    rw [load_as_file_exact (pyJoin_ne_empty main hdir) hentry]
    rfl
  · intro hfail
    unfold load_as_directory
    rw [hrif]
    simp only [htr, if_true, Option.getD_some, hpkg, if_pos rfl, hjson]
    rw [hfail]
    rfl

/-- Filesystem used by the C5 witness: manifest with `main: lib/entry.js`,
the entry file, and a competing `index.js`. -/
def fsC5 : FS :=
  ⟨fun p => p == "/d/package.json" || p == "/d/lib/entry.js" || p == "/d/index.js",
   fun p => if p == "/d/package.json" then JsonContent.obj (some "lib/entry.js")
            else JsonContent.obj none⟩

/-- Witness for C5: even though `/d/index.js` exists, resolving the directory
`/d` returns the manifest entry `/d/lib/entry.js`. -/
theorem load_as_directory_manifest_precedence_witness :
    load_as_directory "/d" ctx0 fsC5 = Except.ok (some (pyJoin "/d" "lib/entry.js")) ∧
    pyJoin "/d" "lib/entry.js" = "/d/lib/entry.js" :=
  ⟨(load_as_directory_manifest_precedence "/d" "lib/entry.js" ctx0 fsC5
      (by decide) (by rfl) (by rfl)).1 (by rfl), rfl⟩

/-! ## Claim C10: totality of `returnIfFile` -/

/-- C10: `returnIfFile` is total over its public inputs — a `None` or empty
path yields the not-found sentinel for every filesystem (no filesystem
access), and a non-empty path yields the optionally sub-path-joined path
exactly when the filesystem has a regular file there.  Totality of the Lean
function models the absence of exceptions, so callers such as `find_module`
can feed a failed earlier stage's `None` straight back in. -/
theorem returnIfFile_total (p : String) (file : Option String) (fs : FS) (hp : p ≠ "") :
    (∀ (file2 : Option String) (fs2 : FS),
      returnIfFile none file2 fs2 = none ∧ returnIfFile (some "") file2 fs2 = none) ∧
    ((fs.isfile (if pyTruthy file then pyJoin p (file.getD "") else p) = true →
        returnIfFile (some p) file fs =
          some (if pyTruthy file then pyJoin p (file.getD "") else p)) ∧
     (fs.isfile (if pyTruthy file then pyJoin p (file.getD "") else p) = false →
        returnIfFile (some p) file fs = none)) := by
  refine ⟨fun file2 fs2 => ⟨rfl, rfl⟩, ?_, ?_⟩
  · intro hfile
    rw [returnIfFile_some_eq file fs hp, if_pos hfile]
  · intro hfile
    rw [returnIfFile_some_eq file fs hp]
    simp [hfile]

/-- Filesystem used by the C10 witness. -/
def fsC10 : FS := ⟨fun p => p == "/d/g", fun _ => JsonContent.obj none⟩

/-- Witness for C10 at concrete inputs: the `None` path gives `None`, and the
joined path `/d` + `g` is returned because `/d/g` is a file. -/
theorem returnIfFile_total_witness :
    returnIfFile none (some "g") fsC10 = none ∧
    returnIfFile (some "/d") (some "g") fsC10 =
      some (if pyTruthy (some "g") then pyJoin "/d" ((some "g").getD "") else "/d") :=
  ⟨((returnIfFile_total "/d" (some "g") fsC10 (by decide)).1 (some "g") fsC10).1,
   (returnIfFile_total "/d" (some "g") fsC10 (by decide)).2.1 (by rfl)⟩

/-! ## Claims C6 and C1: the `node_modules` enumeration -/

lemma splitFolders_ne_nil (q : List Char) : splitFolders q ≠ [] := by
  unfold splitFolders
  simp

lemma split_path_chars_eq (l : List Char) : split_path_chars l = splitFolders (normChars l) := rfl

lemma split_path_ne_nil (start : String) : split_path start ≠ [] := by
  unfold split_path
  rw [split_path_chars_eq]
  simp [splitFolders_ne_nil]

/-- The candidate directory emitted for a prefix of the given length:
the join of that prefix of the segments with a final `node_modules`. -/
def nm_candidate (parts : List String) (len : Nat) : String :=
  pyJoinList (parts.take len ++ ["node_modules"])

lemma nmAux_closed (parts : List String) (i : Nat) :
    nmAux parts i = (List.range (i + 1)).map (fun j => nm_candidate parts (i + 1 - j)) := by
  induction i with
  | zero => simp [nmAux, pyStringIs, nm_candidate, List.range_succ]
  | succ i ih =>
    have hstep : nmAux parts (i + 1) =
        pyJoinList (parts.take (i + 2) ++ ["node_modules"]) :: nmAux parts i := by
      simp [nmAux, pyStringIs]
    rw [hstep, ih]
    conv_rhs => rw [List.range_succ_eq_map, List.map_cons, List.map_map]
    have hhead : nm_candidate parts (i + 1 + 1 - 0) =
        pyJoinList (parts.take (i + 2) ++ ["node_modules"]) := by
      simp [nm_candidate]
    rw [hhead]
    congr 1
    refine List.map_congr_left ?_
    intro j _
    simp only [Function.comp_apply]
    congr 1
    omega

/-- Filesystem used by the C6 theorem: the same package installed under two
ancestor `node_modules` directories. -/
def fsC6 : FS :=
  ⟨fun p => p == "/a/b/node_modules/pkg/index.js" || p == "/a/node_modules/pkg/index.js",
   fun _ => JsonContent.obj none⟩

/-- C6: the candidate list of `node_modules_paths` is, in order, the join of
each prefix of the split segments (longest prefix — the nearest enclosing
directory — first, filesystem root last) with a trailing `node_modules`;
and with `pkg` installed both at `a/b/node_modules` and `a/node_modules`,
resolving `pkg` from `a/b/c` returns the nearer ancestor's copy. -/
theorem node_modules_paths_nearest_first :
    (∀ start : String,
      node_modules_paths start =
        (List.range (split_path start).length).map
          (fun j => nm_candidate (split_path start) ((split_path start).length - j))) ∧
    find_require_module "pkg" "/a/b/c" ctx0 fsC6 =
      Except.ok (some "/a/b/node_modules/pkg/index.js") := by
  constructor
  · intro start
    unfold node_modules_paths
    cases hp : split_path start with
    | nil => exact absurd hp (split_path_ne_nil start)
    | cons a t =>
      simp only [hp]
      rw [nmAux_closed]
      have hlen : t.length + 1 - 1 + 1 = (a :: t).length := by simp
      simp only [List.length_cons] at hlen ⊢
      rw [hlen]
  · rfl

/-- C1 (behaviour at the failing input): enumerating from
`/a/node_modules/x` emits the doubled candidate
`/a/node_modules/node_modules`.  The skip guard `parts[i] is 'node_modules'`
compares object identity, which is false for the freshly allocated segment
strings, so the skip documented in the function's own pseudocode never
fires. -/
theorem node_modules_paths_doubles_node_modules :
    node_modules_paths "/a/node_modules/x" =
      ["/a/node_modules/x/node_modules", "/a/node_modules/node_modules",
       "/a/node_modules", "/node_modules"] ∧
    "/a/node_modules/node_modules" ∈ node_modules_paths "/a/node_modules/x" := by
  have h : node_modules_paths "/a/node_modules/x" =
      ["/a/node_modules/x/node_modules", "/a/node_modules/node_modules",
       "/a/node_modules", "/node_modules"] := rfl
  exact ⟨h, by rw [h]; exact List.Mem.tail _ (List.Mem.head _)⟩

/-! ## Claim C7: dispatch of absolute specifiers -/

lemma string_mk_toList (s : String) : (⟨s.toList⟩ : String) = s := by cases s; rfl

lemma pyStartswith_one_iff {s : String} {c : Char} :
    pyStartswith s (⟨[c]⟩ : String) = true ↔ s.toList.head? = some c := by
  unfold pyStartswith
  have h : (⟨[c]⟩ : String).toList = [c] := rfl
  rw [h]
  cases s.toList with
  | nil => simp
  | cons a rest =>
    simp [List.isPrefixOf_cons₂]
    exact eq_comm

lemma pyStartswith_slash_iff {s : String} :
    pyStartswith s "/" = true ↔ s.toList.head? = some '/' :=
  pyStartswith_one_iff

lemma pyStartswith_dot_iff {s : String} :
    pyStartswith s "." = true ↔ s.toList.head? = some '.' :=
  pyStartswith_one_iff

lemma pyStartswith_slash_not_dot {s : String} (h : pyStartswith s "/" = true) :
    pyStartswith s "." = false := by
  rw [Bool.eq_false_iff]
  intro hd
  rw [pyStartswith_dot_iff] at hd
  rw [pyStartswith_slash_iff] at h
  rw [h] at hd
  exact absurd hd (by decide)

lemma pyJoin_absolute {b : String} (a : String) (hb : pyStartswith b "/" = true) :
    pyJoin a b = b := by
  rw [pyStartswith_slash_iff] at hb
  unfold pyJoin joinTwo
  rw [if_pos hb]
  exact string_mk_toList b

lemma nmAux_ne_nil (parts : List String) (i : Nat) : nmAux parts i ≠ [] := by
  cases i <;> simp [nmAux, pyStringIs]

lemma node_modules_paths_ne_nil (start : String) : node_modules_paths start ≠ [] := by
  unfold node_modules_paths
  cases hp : split_path start with
  | nil => exact absurd hp (split_path_ne_nil start)
  | cons a t =>
    simp only [hp]
    exact nmAux_ne_nil _ _

lemma lnm_loop_const {module : String} {ctx : Settings} {fs : FS} {dirs : List String}
    (hne : dirs ≠ []) (hconst : ∀ dir ∈ dirs, pyJoin dir module = module) :
    lnm_loop module ctx fs dirs =
      match load_as_file module ctx fs with
      | some file => Except.ok (some file)
      | none => load_as_directory module ctx fs := by
  induction dirs with
  | nil => exact absurd rfl hne
  | cons d rest ih =>
    have hd : pyJoin d module = module := hconst d (List.Mem.head _)
    simp only [lnm_loop]
    rw [hd]
    cases hf : load_as_file module ctx fs with
    | some file => rfl
    | none =>
      cases hdir : load_as_directory module ctx fs with
      | error e => rfl
      | ok r =>
        cases r with
        | some file => rfl
        | none =>
          cases rest with
          | nil => rfl
          | cons d2 rest2 =>
            rw [ih (by simp) fun dir hdir2 => hconst dir (List.Mem.tail _ hdir2), hf, hdir]

/-- Filesystem used by the C7 theorems: only `/y` exists. -/
def fsC7 : FS := ⟨fun p => p == "/y", fun _ => JsonContent.obj none⟩

/-- C7 counterexample: the claim sends every filesystem-absolute specifier
through the relative branch, whose candidate is
`normalize(join(requestingFileDir, specifier))`.  At specifier `/x/../y`
from directory `/a`, with only `/y` on disk, that branch resolves to `/y`,
but the code — whose dispatch tests only `startswith('.')` — goes through
the `node_modules` search, probes the unnormalized path, and finds
nothing. -/
theorem find_require_module_absolute_counterexample :
    relative_branch_spec "/x/../y" "/a" ctx0 fsC7 = Except.ok (some "/y") ∧
    find_require_module "/x/../y" "/a" ctx0 fsC7 = Except.ok none ∧
    find_require_module "/x/../y" "/a" ctx0 fsC7 ≠
      relative_branch_spec "/x/../y" "/a" ctx0 fsC7 := by
  have h1 : find_require_module "/x/../y" "/a" ctx0 fsC7 = Except.ok none := rfl
  have h2 : relative_branch_spec "/x/../y" "/a" ctx0 fsC7 = Except.ok (some "/y") := rfl
  refine ⟨h2, h1, ?_⟩
  rw [h1, h2]
  intro h
  simp at h

/-- C7 as amended: only specifiers starting with `.` take the relative
branch.  A filesystem-absolute specifier that is not a core-module name is
dispatched to the `node_modules` search; there `join(dir, specifier)`
collapses to the specifier itself for every candidate directory, so the
search behaves exactly like loading the unnormalized specifier as a file and
then as a directory. -/
theorem find_require_module_absolute_via_node_modules (s d : String) (ctx : Settings) (fs : FS)
    (habs : pyStartswith s "/" = true) (hcore : s ∉ CORE_MODULES) :
    find_require_module s d ctx fs = load_node_modules s d ctx fs ∧
    find_require_module s d ctx fs =
      match load_as_file s ctx fs with
      | some file => Except.ok (some file)
      | none => load_as_directory s ctx fs := by
  have hdot : pyStartswith s "." = false := pyStartswith_slash_not_dot habs
  have h1 : find_require_module s d ctx fs = load_node_modules s d ctx fs := by
    unfold find_require_module
    simp [hcore, hdot]
  refine ⟨h1, ?_⟩
  rw [h1]
  unfold load_node_modules
  exact lnm_loop_const (node_modules_paths_ne_nil d)
    (fun dir _ => pyJoin_absolute dir habs)

/-- Witness for the amended C7 theorem at concrete inputs: the absolute
specifier `/y` from directory `/a` resolves through the `node_modules`
branch, and equals direct file loading of `/y` itself. -/
theorem find_require_module_absolute_via_node_modules_witness :
    find_require_module "/y" "/a" ctx0 fsC7 = load_node_modules "/y" "/a" ctx0 fsC7 ∧
    find_require_module "/y" "/a" ctx0 fsC7 = Except.ok (some "/y") :=
  ⟨(find_require_module_absolute_via_node_modules "/y" "/a" ctx0 fsC7 (by rfl) (by decide)).1,
   by
    rw [(find_require_module_absolute_via_node_modules "/y" "/a" ctx0 fsC7 (by rfl) (by decide)).2]
    rfl⟩

/-! ## Claim C8: gating and order of the bundler-alias fallback -/

/-- Filesystem used by the C8 counterexample: only the aliased
`/proj/src/fs.js` exists. -/
def fsC8 : FS := ⟨fun p => p == "/proj/src/fs.js", fun _ => JsonContent.obj none⟩

/-- Filesystem used by the C8 witness: only `/a/node_modules/m.js` exists. -/
def fsC8b : FS := ⟨fun p => p == "/a/node_modules/m.js", fun _ => JsonContent.obj none⟩

/-- C8 counterexample: primary resolution of the core module `fs` succeeds
(with the core sentinel), yet `find_module` still runs the alias search —
its result is the aliased file `/proj/src/fs.js` — because the gate is
`not returnIfFile(match)`, not "primary resolution failed". -/
theorem find_module_alias_runs_after_core_success :
    find_require_module "fs" "/a" ctx0 fsC8 = Except.ok (some "fs") ∧
    find_module "fs" "/a" "/proj" ["src"] [] ctx0 fsC8 =
      Except.ok (some "/proj/src/fs.js") :=
  ⟨rfl, rfl⟩

/-- C8 as amended: the alias fallback runs exactly when the primary result
is falsy or does not name an existing file (hence also after a successful
core-module resolution, whose sentinel is not a file); with empty alias
roots an unresolved specifier yields not-found with the alias search
returning nothing; when the primary result is a truthy existing file the
fallback is skipped and the alias configuration is irrelevant; and the
search iterates alias roots in the outer loop and extensions in the inner
loop, trying the exact join, then the extension-appended join, then the
index file, for each pair. -/
theorem find_module_alias_gating (module file_path project_path : String)
    (webpack_modules webpack_resolve_extensions : List String) (ctx : Settings) (fs : FS) :
    (find_require_module module file_path ctx fs = Except.ok none →
      find_module module file_path project_path [] webpack_resolve_extensions ctx fs =
        Except.ok none) ∧
    (∀ q, find_require_module module file_path ctx fs = Except.ok (some q) → q ≠ "" →
      fs.isfile q = true →
      find_module module file_path project_path webpack_modules webpack_resolve_extensions ctx fs =
        Except.ok (some q)) ∧
    (∀ m, find_require_module module file_path ctx fs = Except.ok m →
      (pyTruthy m = false ∨ pyTruthy (returnIfFile m none fs) = false) →
      find_module module file_path project_path webpack_modules webpack_resolve_extensions ctx fs =
        Except.ok (returnIfFile
          (find_import_module module project_path webpack_modules
            (if webpack_resolve_extensions = [] then ctx.resolve_extensions
             else webpack_resolve_extensions) fs) none fs)) ∧
    (∀ (root : String) (rest exts : List String) (pp2 : String),
      find_import_module module pp2 (root :: rest) exts fs =
        match import_ext_loop module (pyJoin pp2 root) fs exts with
        | some file => some file
        | none => find_import_module module pp2 rest exts fs) ∧
    (∀ (folder ext : String) (rest : List String),
      import_ext_loop module folder fs (ext :: rest) =
        match
          (returnIfFile (some (pyJoin folder module)) none fs).orElse fun _ =>
            (returnIfFile (some (pyJoin folder (module ++ ext))) none fs).orElse fun _ =>
              returnIfFile (some (pyJoin (pyJoin folder module) ("index" ++ ext))) none fs
        with
        | some file => some file
        | none => import_ext_loop module folder fs rest) := by
  refine ⟨?_, ?_, ?_, ?_, ?_⟩
  · intro h
    unfold find_module
    rw [h]
    have : find_import_module module project_path []
        (if webpack_resolve_extensions = [] then ctx.resolve_extensions
         else webpack_resolve_extensions) fs = none := rfl
    simp [pyTruthy, this, returnIfFile]
  · intro q h hq hfile
    unfold find_module
    rw [h]
    have h1 : pyTruthy (some q) = true := pyTruthy_some hq
    have h2 : returnIfFile (some q) none fs = some q := by
      rw [returnIfFile_some_eq none fs hq]
      simp [pyTruthy, hfile]
    have hneg : ¬ (¬ pyTruthy (some q) = true ∨
        ¬ pyTruthy (returnIfFile (some q) none fs) = true) := by
      rintro (hc | hc)
      · exact hc h1
      · rw [h2] at hc
        exact hc h1
    dsimp only
    rw [if_neg hneg, h2]
  · intro m h hcond
    unfold find_module
    rw [h]
    have : (¬ pyTruthy m = true ∨ ¬ pyTruthy (returnIfFile m none fs) = true) := by
      rcases hcond with hc | hc
      · exact Or.inl (by rw [hc]; simp)
      · exact Or.inr (by rw [hc]; simp)
    dsimp only
    rw [if_pos this]
  · intro root rest exts pp2
    unfold find_import_module
    rw [if_neg (List.cons_ne_nil root rest)]
    cases hloop : import_ext_loop module (pyJoin pp2 root) fs exts with
    | some file => simp [import_root_loop, hloop]
    | none =>
      simp only [import_root_loop, hloop]
      cases rest with
      | nil => simp [import_root_loop]
      | cons r2 rest2 => simp
  · intro folder ext rest
    rfl

/-- Witness for the amended C8 theorem at concrete inputs: with empty alias
roots an unresolved specifier gives not-found; a primary hit skips the alias
configuration; and the core sentinel `fs` (not a file) routes the result
through the alias search. -/
theorem find_module_alias_gating_witness :
    find_module "nope" "/a" "/proj" [] [] ctx0 fsC8 = Except.ok none ∧
    find_module "m" "/a" "/proj" ["src"] [] ctx0 fsC8b =
      Except.ok (some "/a/node_modules/m.js") ∧
    find_module "fs" "/a" "/proj" ["src"] [] ctx0 fsC8 =
      Except.ok (returnIfFile
        (find_import_module "fs" "/proj" ["src"]
          (if ([] : List String) = [] then ctx0.resolve_extensions else []) fsC8) none fsC8) :=
  ⟨(find_module_alias_gating "nope" "/a" "/proj" [] [] ctx0 fsC8).1 (by rfl),
   (find_module_alias_gating "m" "/a" "/proj" ["src"] [] ctx0 fsC8b).2.1
     "/a/node_modules/m.js" (by rfl) (by decide) (by rfl),
   (find_module_alias_gating "fs" "/a" "/proj" ["src"] [] ctx0 fsC8).2.2.1
     (some "fs") (by rfl) (Or.inr (by rfl))⟩

/-! ## Claim C9: round-trip of `split_path` against joining

The development characterises the output of `normChars` as a slash prefix
plus well-formed components, shows that the split loop recovers exactly
those components, and that rejoining them reproduces the normal form. -/

lemma splitSlash_ne_nil (l : List Char) : splitSlash l ≠ [] := by
  cases l with
  | nil => simp [splitSlash]
  | cons c rest =>
    simp only [splitSlash]
    cases h : splitSlash rest with
    | nil => simp
    | cons g gs =>
      by_cases hc : c = '/' <;> simp [hc]

lemma mem_splitSlash_no_slash {l : List Char} {g : List Char}
    (hg : g ∈ splitSlash l) : '/' ∉ g := by
  induction l generalizing g with
  | nil =>
    simp [splitSlash] at hg
    simp [hg]
  | cons c rest ih =>
    simp only [splitSlash] at hg
    cases h : splitSlash rest with
    | nil => exact absurd h (splitSlash_ne_nil rest)
    | cons g0 gs =>
      rw [h] at hg
      by_cases hc : c = '/'
      · simp only [hc, if_pos rfl] at hg
        rcases List.mem_cons.mp hg with h1 | h1
        · simp [h1]
        · exact ih (h ▸ h1)
      · simp only [if_neg hc] at hg
        rcases List.mem_cons.mp hg with h1 | h1
        · subst h1
          intro hmem
          rcases List.mem_cons.mp hmem with h2 | h2
          · exact hc h2.symm
          · exact ih (h ▸ List.mem_cons_self g0 gs) h2
        · exact ih (h ▸ List.mem_cons.mpr (Or.inr h1))

lemma splitSlash_no_slash {g : List Char} (hg : '/' ∉ g) : splitSlash g = [g] := by
  induction g with
  | nil => rfl
  | cons c rest ih =>
    have hc : ¬ (c = '/') := fun h => hg (h ▸ List.mem_cons_self c rest)
    have hrest : '/' ∉ rest := fun h => hg (List.mem_cons.mpr (Or.inr h))
    simp only [splitSlash, ih hrest, if_neg hc]

lemma splitSlash_append_slash {g : List Char} (x : List Char) (hg : '/' ∉ g) :
    splitSlash (g ++ '/' :: x) = g :: splitSlash x := by
  induction g with
  | nil =>
    simp only [List.nil_append, splitSlash]
    cases h : splitSlash x with
    | nil => exact absurd h (splitSlash_ne_nil x)
    | cons g0 gs => simp
  | cons c rest ih =>
    have hc : ¬ (c = '/') := fun h => hg (h ▸ List.mem_cons_self c rest)
    have hrest : '/' ∉ rest := fun h => hg (List.mem_cons.mpr (Or.inr h))
    have hstep : splitSlash ((c :: rest) ++ '/' :: x) =
        match splitSlash (rest ++ '/' :: x) with
        | [] => [[]]
        | g :: gs => if c = '/' then [] :: g :: gs else (c :: g) :: gs := rfl
    rw [hstep, ih hrest]
    simp [hc]

lemma pyJoinStr_snoc {cs : List (List Char)} (c : List Char) (h : cs ≠ []) :
    pyJoinStr (cs ++ [c]) = pyJoinStr cs ++ '/' :: c := by
  induction cs with
  | nil => exact absurd rfl h
  | cons g rest ih =>
    cases rest with
    | nil => rfl
    | cons g2 rest2 =>
      have h1 : pyJoinStr ((g :: g2 :: rest2) ++ [c]) =
          g ++ '/' :: pyJoinStr ((g2 :: rest2) ++ [c]) := rfl
      have h2 : pyJoinStr (g :: g2 :: rest2) = g ++ '/' :: pyJoinStr (g2 :: rest2) := rfl
      rw [h1, ih (by simp), h2]
      simp

lemma splitSlash_pyJoinStr {nc : List (List Char)} (hne : nc ≠ [])
    (hgood : ∀ g ∈ nc, '/' ∉ g) : splitSlash (pyJoinStr nc) = nc := by
  induction nc with
  | nil => exact absurd rfl hne
  | cons g rest ih =>
    cases rest with
    | nil => exact splitSlash_no_slash (hgood g (List.mem_cons_self g []))
    | cons g2 rest2 =>
      have hg : '/' ∉ g := hgood g (List.mem_cons_self _ _)
      have : pyJoinStr (g :: g2 :: rest2) = g ++ '/' :: pyJoinStr (g2 :: rest2) := rfl
      rw [this, splitSlash_append_slash _ hg,
        ih (by simp) (fun x hx => hgood x (List.mem_cons.mpr (Or.inr hx)))]

/-- A well-formed surviving component of `normChars`: non-empty, not `.`,
and containing no separator. -/
def GoodComp (g : List Char) : Prop := g ≠ [] ∧ g ≠ ['.'] ∧ '/' ∉ g

/-- The shape invariant of the surviving component list: all components are
well formed, any `..` components form a prefix, and an absolute path
(non-zero slash prefix) has no `..` components at all. -/
def NF (k : Nat) (nc : List (List Char)) : Prop :=
  (∀ g ∈ nc, GoodComp g) ∧
  ∃ m rest, nc = List.replicate m ['.', '.'] ++ rest ∧
    ['.', '.'] ∉ rest ∧ (k ≠ 0 → m = 0)

lemma NF_nil (k : Nat) : NF k [] :=
  ⟨fun g hg => absurd hg (List.not_mem_nil g), 0, [], rfl, List.not_mem_nil _, fun _ => rfl⟩

lemma normStep_NF {k : Nat} {acc : List (List Char)} {comp : List Char}
    (hacc : NF k acc) (hcomp : '/' ∉ comp) : NF k (normStep k acc comp) := by
  obtain ⟨hgood, m, rest, hdecomp, hdd, hk⟩ := hacc
  unfold normStep
  split
  · exact ⟨hgood, m, rest, hdecomp, hdd, hk⟩
  · rename_i hne
    push_neg at hne
    obtain ⟨hne1, hne2⟩ := hne
    split
    · rename_i hcond
      refine ⟨?_, ?_⟩
      · intro g hg
        rcases List.mem_append.mp hg with h1 | h1
        · exact hgood g h1
        · simp only [List.mem_singleton] at h1
          subst h1
          exact ⟨hne1, hne2, hcomp⟩
      · by_cases hdd2 : comp = ['.', '.']
        · subst hdd2
          rcases hcond with hc | hc | hc
          · exact absurd rfl hc
          · obtain ⟨hk0, hacc0⟩ := hc
            refine ⟨1, [], ?_, List.not_mem_nil _, fun hkk => absurd hk0 hkk⟩
            rw [hacc0]
            rfl
          · have hrest_nil : rest = [] := by
              by_contra hr
              rw [hdecomp, List.getLast?_append_of_ne_nil _ hr] at hc
              exact hdd (List.mem_of_getLast?_eq_some hc)
            subst hrest_nil
            refine ⟨m + 1, [], ?_, List.not_mem_nil _, ?_⟩
            · rw [hdecomp]
              simp [List.replicate_succ']
            · intro hkk
              have hm := hk hkk
              subst hm
              rw [hdecomp] at hc
              simp at hc
        · refine ⟨m, rest ++ [comp], by rw [hdecomp]; simp, ?_, hk⟩
          intro hmem
          rcases List.mem_append.mp hmem with h1 | h1
          · exact hdd h1
          · simp only [List.mem_singleton] at h1
            exact hdd2 h1.symm
    · rename_i hcond
      push_neg at hcond
      obtain ⟨hcomp_dd, hnot_emp, hlast⟩ := hcond
      refine ⟨fun g hg => hgood g ((List.dropLast_sublist acc).subset hg), ?_⟩
      cases hrest : rest with
      | nil =>
        subst hrest
        rw [List.append_nil] at hdecomp
        cases hm : m with
        | zero =>
          subst hm
          rw [hdecomp]
          exact ⟨0, [], rfl, List.not_mem_nil _, fun _ => rfl⟩
        | succ m2 =>
          exfalso
          apply hlast
          rw [hdecomp, hm, List.replicate_succ', List.getLast?_concat]
      | cons r0 rest2 =>
        refine ⟨m, rest.dropLast, ?_, ?_, hk⟩
        · rw [hdecomp, hrest, List.dropLast_append_cons]
        · intro hmem
          exact hdd ((List.dropLast_sublist rest).subset hmem)

lemma foldl_normStep_NF {k : Nat} (comps : List (List Char)) (acc : List (List Char))
    (hcomps : ∀ g ∈ comps, '/' ∉ g) (hacc : NF k acc) :
    NF k (comps.foldl (normStep k) acc) := by
  induction comps generalizing acc with
  | nil => exact hacc
  | cons g rest ih =>
    exact ih (normStep k acc g) (fun x hx => hcomps x (List.mem_cons.mpr (Or.inr hx)))
      (normStep_NF hacc (hcomps g (List.mem_cons_self _ _)))

lemma normComps_NF (k : Nat) (l : List Char) : NF k (normComps k l) :=
  foldl_normStep_NF _ _ (fun _g hg => mem_splitSlash_no_slash hg) (NF_nil k)

lemma initSlashes_le_two (l : List Char) : initSlashes l ≤ 2 := by
  unfold initSlashes
  split
  · split <;> omega
  · omega

lemma normChars_spec (l : List Char) :
    ∃ k nc, normChars l = renderNF k nc ∧ k ≤ 2 ∧ NF k nc := by
  unfold normChars
  split
  · exact ⟨0, [], rfl, by omega, NF_nil 0⟩
  · exact ⟨initSlashes l, normComps (initSlashes l) l, rfl, initSlashes_le_two l,
      normComps_NF _ _⟩

/-- The raw reassembly (before the empty-path fallback to `.`). -/
def rawRender (k : Nat) (cs : List (List Char)) : List Char := slashes k ++ pyJoinStr cs

lemma renderNF_eq_raw {k : Nat} {nc : List (List Char)} (h : rawRender k nc ≠ []) :
    renderNF k nc = rawRender k nc := by
  unfold renderNF
  unfold rawRender at h ⊢
  simp only [if_neg h]

lemma pyJoinStr_cons_exists (c : List Char) (cs : List (List Char)) :
    ∃ t, pyJoinStr (c :: cs) = c ++ t := by
  cases cs with
  | nil => exact ⟨[], by simp [pyJoinStr]⟩
  | cons c2 cs2 => exact ⟨'/' :: pyJoinStr (c2 :: cs2), rfl⟩

lemma takeWhile_append_stop {p : Char → Bool} {g : List Char} {c0 : Char} (x : List Char)
    (hg : ∀ c ∈ g, p c = true) (hc : p c0 = false) :
    (g ++ c0 :: x).takeWhile p = g := by
  induction g with
  | nil =>
    simp only [List.nil_append]
    exact List.takeWhile_cons_of_neg (by simp [hc])
  | cons a g' ih =>
    rw [List.cons_append, List.takeWhile_cons_of_pos (hg a (List.mem_cons_self _ _)),
      ih fun c hcmem => hg c (List.mem_cons.mpr (Or.inr hcmem))]

lemma dropWhile_append_stop {p : Char → Bool} {g : List Char} {c0 : Char} (x : List Char)
    (hg : ∀ c ∈ g, p c = true) (hc : p c0 = false) :
    (g ++ c0 :: x).dropWhile p = c0 :: x := by
  induction g with
  | nil =>
    simp only [List.nil_append]
    exact List.dropWhile_cons_of_neg (by simp [hc])
  | cons a g' ih =>
    rw [List.cons_append, List.dropWhile_cons_of_pos (hg a (List.mem_cons_self _ _)),
      ih fun c hcmem => hg c (List.mem_cons.mpr (Or.inr hcmem))]

lemma takeWhile_all_true {p : Char → Bool} {g : List Char}
    (hg : ∀ c ∈ g, p c = true) : g.takeWhile p = g := by
  induction g with
  | nil => rfl
  | cons a g' ih =>
    rw [List.takeWhile_cons_of_pos (hg a (List.mem_cons_self _ _)),
      ih fun c hcmem => hg c (List.mem_cons.mpr (Or.inr hcmem))]

lemma dropWhile_all_true {p : Char → Bool} {g : List Char}
    (hg : ∀ c ∈ g, p c = true) : g.dropWhile p = [] := by
  induction g with
  | nil => rfl
  | cons a g' ih =>
    rw [List.dropWhile_cons_of_pos (hg a (List.mem_cons_self _ _)),
      ih fun c hcmem => hg c (List.mem_cons.mpr (Or.inr hcmem))]

lemma reverse_cons_of_ne_nil {g : List Char} (hg : g ≠ []) :
    ∃ a t, g.reverse = a :: t ∧ a ∈ g := by
  cases hrev : g.reverse with
  | nil => exact absurd (List.reverse_eq_nil_iff.mp hrev) hg
  | cons a t =>
    refine ⟨a, t, rfl, ?_⟩
    have : a ∈ g.reverse := by rw [hrev]; exact List.mem_cons_self _ _
    exact List.mem_reverse.mp this

lemma posixSplit_no_slash {B : List Char} (hB : '/' ∉ B) : posixSplit B = ([], B) := by
  have hall : ∀ c ∈ B.reverse, (fun c => ¬ (c = '/') : Char → Bool) c = true := by
    intro c hcmem
    have : c ∈ B := List.mem_reverse.mp hcmem
    simp only [decide_eq_true_eq]
    exact fun h => hB (h ▸ this)
  unfold posixSplit
  dsimp only
  rw [takeWhile_all_true hall, dropWhile_all_true hall]
  simp

lemma posixSplit_append_slash {A B : List Char} (hB : '/' ∉ B)
    (hA : ∃ a t, A.reverse = a :: t ∧ ¬ (a = '/')) :
    posixSplit (A ++ '/' :: B) = (A, B) := by
  obtain ⟨a, t, hrev, ha⟩ := hA
  have hall : ∀ c ∈ B.reverse, (fun c => ¬ (c = '/') : Char → Bool) c = true := by
    intro c hcmem
    have : c ∈ B := List.mem_reverse.mp hcmem
    simp only [decide_eq_true_eq]
    exact fun h => hB (h ▸ this)
  have hslash : (fun c => ¬ (c = '/') : Char → Bool) '/' = false := by simp
  have hr : (A ++ '/' :: B).reverse = B.reverse ++ '/' :: A.reverse := by
    simp
  unfold posixSplit
  dsimp only
  rw [hr, takeWhile_append_stop _ hall hslash, dropWhile_append_stop _ hall hslash]
  have hheadRaw : ('/' :: A.reverse).reverse = A ++ ['/'] := by simp
  rw [hheadRaw]
  have hne : ¬ (A ++ ['/'] = [] ∨ (A ++ ['/']).all (fun c => c = '/') = true) := by
    rintro (h1 | h1)
    · simp at h1
    · rw [List.all_eq_true] at h1
      have : a ∈ A ++ ['/'] := by
        apply List.mem_append.mpr
        left
        exact List.mem_reverse.mp (by rw [hrev]; exact List.mem_cons_self _ _)
      have := h1 a this
      simp only [decide_eq_true_eq] at this
      exact ha this
  rw [if_neg hne]
  have hrev2 : (A ++ ['/']).reverse = '/' :: A.reverse := by simp
  rw [hrev2]
  have hstep : List.dropWhile (fun c => c = '/') ('/' :: A.reverse) =
      List.dropWhile (fun c => c = '/') A.reverse :=
    List.dropWhile_cons_of_pos (by simp)
  rw [hstep, hrev, List.dropWhile_cons_of_neg (by simp [ha]), ← hrev]
  simp

lemma posixSplit_slashes_append {j : Nat} {B : List Char} (hB : '/' ∉ B) :
    posixSplit (slashes (j + 1) ++ B) = (slashes (j + 1), B) := by
  have hall : ∀ c ∈ B.reverse, (fun c => ¬ (c = '/') : Char → Bool) c = true := by
    intro c hcmem
    have : c ∈ B := List.mem_reverse.mp hcmem
    simp only [decide_eq_true_eq]
    exact fun h => hB (h ▸ this)
  have hslash : (fun c => ¬ (c = '/') : Char → Bool) '/' = false := by simp
  have hr : (slashes (j + 1) ++ B).reverse = B.reverse ++ '/' :: slashes j := by
    unfold slashes
    rw [List.reverse_append, List.reverse_replicate, List.replicate_succ]
  unfold posixSplit
  dsimp only
  rw [hr, takeWhile_append_stop _ hall hslash, dropWhile_append_stop _ hall hslash]
  have hheadRaw : ('/' :: slashes j).reverse = slashes (j + 1) := by
    unfold slashes
    rw [List.reverse_cons, List.reverse_replicate, ← List.replicate_succ']
  rw [hheadRaw]
  have hpos : (slashes (j + 1) = [] ∨ (slashes (j + 1)).all (fun c => c = '/') = true) := by
    right
    rw [List.all_eq_true]
    intro x hx
    unfold slashes at hx
    simp only [List.eq_of_mem_replicate hx, decide_eq_true_eq]
  rw [if_pos hpos]
  simp

lemma posixSplit_slashes (j : Nat) : posixSplit (slashes (j + 1)) = (slashes (j + 1), []) := by
  have := posixSplit_slashes_append (j := j) (B := []) (List.not_mem_nil _)
  rwa [List.append_nil] at this

lemma posixSplit_lt (l : List Char) (h : (posixSplit l).2 ≠ []) :
    (posixSplit l).1.length < l.length := by
  unfold posixSplit at h ⊢
  dsimp only at h ⊢
  have hsum : (l.reverse.takeWhile (fun c => ¬ (c = '/'))).length +
      (l.reverse.dropWhile (fun c => ¬ (c = '/'))).length = l.length := by
    have h0 := congrArg List.length
      (List.takeWhile_append_dropWhile (p := (fun c => ¬ (c = '/'))) (l := l.reverse))
    rw [List.length_append, List.length_reverse] at h0
    exact h0
  have htail : 0 < (l.reverse.takeWhile (fun c => ¬ (c = '/'))).length := by
    rcases List.eq_nil_or_concat (l.reverse.takeWhile (fun c => ¬ (c = '/'))) with hnil | hcat
    · exact absurd (by rw [hnil]; rfl) h
    · obtain ⟨L, b, hb⟩ := hcat
      rw [hb]
      simp
  split
  · rw [List.length_reverse]
    omega
  · rw [List.length_reverse]
    have hle : ((l.reverse.dropWhile (fun c => ¬ (c = '/'))).reverse.reverse.dropWhile
        (fun c => c = '/')).length ≤ (l.reverse.dropWhile (fun c => ¬ (c = '/'))).length := by
      rw [List.reverse_reverse]
      exact (List.dropWhile_sublist _).length_le
    omega

lemma splitLoopFuel_congr : ∀ (f1 f2 : Nat) (l : List Char), l.length < f1 → l.length < f2 →
    splitLoopFuel f1 l = splitLoopFuel f2 l := by
  intro f1
  induction f1 with
  | zero => exact fun f2 l h1 _ => absurd h1 (Nat.not_lt_zero _)
  | succ f1 ih =>
    intro f2 l h1 h2
    cases f2 with
    | zero => exact absurd h2 (Nat.not_lt_zero _)
    | succ f2 =>
      simp only [splitLoopFuel]
      by_cases hf : (posixSplit l).2 = []
      · rw [if_pos hf, if_pos hf]
      · rw [if_neg hf, if_neg hf]
        have hlt := posixSplit_lt l hf
        exact congrArg _ (ih f2 (posixSplit l).1 (by omega) (by omega))

lemma splitLoopAux_unfold (l : List Char) :
    splitLoopAux l =
      if (posixSplit l).2 = [] then
        (if (posixSplit l).1 = [] then [] else [(posixSplit l).1])
      else (posixSplit l).2 :: splitLoopAux (posixSplit l).1 := by
  unfold splitLoopAux
  have hstep : splitLoopFuel (l.length + 1) l =
      if (posixSplit l).2 = [] then
        (if (posixSplit l).1 = [] then [] else [(posixSplit l).1])
      else (posixSplit l).2 :: splitLoopFuel l.length (posixSplit l).1 := rfl
  rw [hstep]
  by_cases hf : (posixSplit l).2 = []
  · rw [if_pos hf, if_pos hf]
  · rw [if_neg hf, if_neg hf]
    have hlt := posixSplit_lt l hf
    exact congrArg _ (splitLoopFuel_congr _ _ _ (by omega) (by omega))

lemma splitLoopAux_nil : splitLoopAux [] = [] := rfl

lemma slashes_ne_nil (j : Nat) : slashes (j + 1) ≠ [] := by
  unfold slashes
  simp

lemma splitLoopAux_slashes (j : Nat) : splitLoopAux (slashes (j + 1)) = [slashes (j + 1)] := by
  rw [splitLoopAux_unfold, posixSplit_slashes j]
  simp [slashes_ne_nil j]

lemma rawRender_last {k : Nat} {cs : List (List Char)} (hcs : cs ≠ [])
    (hgood : ∀ g ∈ cs, g ≠ [] ∧ '/' ∉ g) :
    ∃ a t, (rawRender k cs).reverse = a :: t ∧ ¬ (a = '/') := by
  obtain ⟨cs', cl, hdecomp⟩ : ∃ cs' cl, cs = cs' ++ [cl] := by
    rcases List.eq_nil_or_concat cs with hnil | hcat
    · exact absurd hnil hcs
    · obtain ⟨L, b, hb⟩ := hcat
      exact ⟨L, b, by rw [hb, List.concat_eq_append]⟩
  have hcl := hgood cl (by rw [hdecomp]; simp)
  obtain ⟨a, t0, hrev, hmem⟩ := reverse_cons_of_ne_nil hcl.1
  have ha : ¬ (a = '/') := fun h => hcl.2 (h ▸ hmem)
  obtain ⟨R, hR⟩ : ∃ R, (rawRender k cs).reverse = cl.reverse ++ R := by
    cases hcs' : cs' with
    | nil =>
      refine ⟨slashes k, ?_⟩
      rw [hdecomp, hcs']
      unfold rawRender slashes
      simp [pyJoinStr]
    | cons x xs =>
      refine ⟨'/' :: (rawRender k cs').reverse, ?_⟩
      rw [hdecomp]
      have : rawRender k (cs' ++ [cl]) = rawRender k cs' ++ '/' :: cl := by
        unfold rawRender
        rw [pyJoinStr_snoc cl (by rw [hcs']; simp)]
        simp
      rw [this]
      simp
  exact ⟨a, t0 ++ R, by rw [hR, hrev, List.cons_append], ha⟩

lemma splitLoopAux_raw {k : Nat} {cs : List (List Char)} (hcs : cs ≠ [])
    (hgood : ∀ g ∈ cs, g ≠ [] ∧ '/' ∉ g) :
    splitLoopAux (rawRender k cs) =
      cs.reverse ++ (if k = 0 then [] else [slashes k]) := by
  induction cs using List.reverseRecOn with
  | nil => exact absurd rfl hcs
  | append_singleton cs' c ih =>
    have hc := hgood c (by simp)
    by_cases hcs2 : cs' = []
    case pos =>
      subst hcs2
      cases k with
      | zero =>
        have hraw : rawRender 0 ([] ++ [c]) = c := by
          unfold rawRender slashes
          simp [pyJoinStr]
        rw [hraw, splitLoopAux_unfold, posixSplit_no_slash hc.2]
        simp [hc.1, splitLoopAux_nil]
      | succ j =>
        have hraw : rawRender (j + 1) ([] ++ [c]) = slashes (j + 1) ++ c := by
          unfold rawRender
          simp [pyJoinStr]
        rw [hraw, splitLoopAux_unfold, posixSplit_slashes_append hc.2]
        simp [hc.1, splitLoopAux_slashes]
    case neg =>
      have hcs'ne : cs' ≠ [] := hcs2
      have hraw : rawRender k (cs' ++ [c]) = rawRender k cs' ++ '/' :: c := by
        unfold rawRender
        rw [pyJoinStr_snoc c hcs'ne]
        simp
      have hgood' : ∀ g ∈ cs', g ≠ [] ∧ '/' ∉ g :=
        fun g hg => hgood g (List.mem_append.mpr (Or.inl hg))
      rw [hraw, splitLoopAux_unfold,
        posixSplit_append_slash hc.2 (rawRender_last hcs'ne hgood')]
      simp only
      rw [if_neg hc.1, ih hcs'ne hgood']
      simp

/-- The segment list that `split_path` produces for the normal form with
slash prefix `k` and components `nc`. -/
def segList (k : Nat) (nc : List (List Char)) : List (List Char) :=
  if k = 0 then (if nc = [] then [['.']] else nc)
  else (if nc = [] then [slashes k, []] else slashes k :: nc)

lemma posixSplit_dot : posixSplit ['.'] = ([], ['.']) := rfl

lemma rawRender_ne_nil {k : Nat} {nc : List (List Char)} (hnc : nc ≠ [])
    (hgood : ∀ g ∈ nc, g ≠ [] ∧ '/' ∉ g) : rawRender k nc ≠ [] := by
  cases nc with
  | nil => exact absurd rfl hnc
  | cons c0 cs0 =>
    obtain ⟨t, ht⟩ := pyJoinStr_cons_exists c0 cs0
    unfold rawRender
    rw [ht]
    intro habs
    rcases List.append_eq_nil.mp habs with ⟨_, h2⟩
    rcases List.append_eq_nil.mp h2 with ⟨h3, _⟩
    exact (hgood c0 (List.mem_cons_self _ _)).1 h3

lemma renderNF_one {j : Nat} : renderNF (j + 1) [] = slashes (j + 1) := by
  unfold renderNF
  simp only [pyJoinStr, List.append_nil]
  rw [if_neg (slashes_ne_nil j)]

lemma splitFolders_render {k : Nat} {nc : List (List Char)}
    (hgood : ∀ g ∈ nc, g ≠ [] ∧ '/' ∉ g) :
    splitFolders (renderNF k nc) = segList k nc := by
  unfold splitFolders segList
  by_cases hnc : nc = []
  · subst hnc
    cases k with
    | zero =>
      have h1 : renderNF 0 [] = ['.'] := rfl
      rw [h1, posixSplit_dot]
      simp [splitLoopAux_nil]
    | succ j =>
      rw [renderNF_one, posixSplit_slashes j, splitLoopAux_slashes j]
      simp
  · have hrender : renderNF k nc = rawRender k nc := renderNF_eq_raw (rawRender_ne_nil hnc hgood)
    rw [hrender]
    obtain ⟨cs', c, hdecomp⟩ : ∃ cs' c, nc = cs' ++ [c] := by
      rcases List.eq_nil_or_concat nc with hnil | hcat
      · exact absurd hnil hnc
      · obtain ⟨L, b, hb⟩ := hcat
        exact ⟨L, b, by rw [hb, List.concat_eq_append]⟩
    have hc := hgood c (by rw [hdecomp]; simp)
    by_cases hcs' : cs' = []
    · subst hcs'
      rw [hdecomp]
      cases k with
      | zero =>
        have hraw : rawRender 0 ([] ++ [c]) = c := by
          unfold rawRender slashes
          simp [pyJoinStr]
        rw [hraw, posixSplit_no_slash hc.2]
        simp [splitLoopAux_nil]
      | succ j =>
        have hraw : rawRender (j + 1) ([] ++ [c]) = slashes (j + 1) ++ c := by
          unfold rawRender
          simp [pyJoinStr]
        rw [hraw, posixSplit_slashes_append hc.2, splitLoopAux_slashes j]
        simp
    · have hgood' : ∀ g ∈ cs', g ≠ [] ∧ '/' ∉ g :=
        fun g hg => hgood g (by rw [hdecomp]; exact List.mem_append.mpr (Or.inl hg))
      have hraw : rawRender k nc = rawRender k cs' ++ '/' :: c := by
        rw [hdecomp]
        unfold rawRender
        rw [pyJoinStr_snoc c hcs']
        simp
      rw [hraw, posixSplit_append_slash hc.2 (rawRender_last hcs' hgood')]
      dsimp only
      have hloop : splitLoopAux (rawRender k cs') =
          cs'.reverse ++ (if k = 0 then [] else [slashes k]) := splitLoopAux_raw hcs' hgood'
      rw [hloop]
      cases k with
      | zero =>
        simp only [if_pos rfl, List.append_nil]
        rw [hdecomp]
        simp
      | succ j =>
        have hj : ¬ (j + 1 = 0) := by omega
        simp only [if_neg hj]
        rw [hdecomp]
        simp

/-- The multi-argument join at the character level (`os.path.join(*parts)`
with a non-empty argument list). -/
def joinListChars : List (List Char) → List Char
  | [] => []
  | h :: t => t.foldl joinTwo h

/-- The tail of a slash-join: each component prefixed by a separator. -/
def glueAll : List (List Char) → List Char
  | [] => []
  | g :: t => '/' :: g ++ glueAll t

lemma pyJoinStr_glue (c : List Char) (cs : List (List Char)) :
    pyJoinStr (c :: cs) = c ++ glueAll cs := by
  induction cs generalizing c with
  | nil => simp [pyJoinStr, glueAll]
  | cons c2 cs2 ih =>
    have h : pyJoinStr (c :: c2 :: cs2) = c ++ '/' :: pyJoinStr (c2 :: cs2) := rfl
    rw [h, ih c2]
    simp [glueAll]

lemma head?_no_slash {g : List Char} (hne : g ≠ []) (hg : '/' ∉ g) :
    ¬ (g.head? = some '/') := by
  cases g with
  | nil => exact absurd rfl hne
  | cons c0 g' =>
    intro habs
    simp only [List.head?_cons, Option.some.injEq] at habs
    exact hg (habs ▸ List.mem_cons_self _ _)

lemma getLast?_no_slash {g : List Char} (hg : '/' ∉ g) :
    ∀ h2, g.getLast? = some h2 → ¬ (h2 = '/') := by
  intro h2 hlast heq
  exact hg (heq ▸ List.mem_of_getLast?_eq_some hlast)

lemma slashes_getLast (j : Nat) : (slashes (j + 1)).getLast? = some '/' := by
  unfold slashes
  rw [List.replicate_succ', List.getLast?_concat]

lemma joinTwo_ordinary {acc g : List Char} (hne : acc ≠ [])
    (hlast : ∀ h2, acc.getLast? = some h2 → ¬ (h2 = '/'))
    (hgne : g ≠ []) (hg : '/' ∉ g) :
    joinTwo acc g = acc ++ '/' :: g := by
  unfold joinTwo
  rw [if_neg (head?_no_slash hgne hg), if_neg ?_]
  rintro (h | h)
  · exact hne h
  · exact hlast '/' h rfl

lemma getLast?_append_cons_no_slash {A g : List Char} (hgne : g ≠ []) (hg : '/' ∉ g) :
    ∀ h2, (A ++ '/' :: g).getLast? = some h2 → ¬ (h2 = '/') := by
  intro h2 hlast
  rw [List.getLast?_append_of_ne_nil _ (by simp)] at hlast
  obtain ⟨L, b, hb⟩ : ∃ L b, g = L ++ [b] := by
    rcases List.eq_nil_or_concat g with hnil | hcat
    · exact absurd hnil hgne
    · obtain ⟨L, b, hb⟩ := hcat
      exact ⟨L, b, by rw [hb, List.concat_eq_append]⟩
  rw [hb] at hlast
  have : ('/' :: (L ++ [b])).getLast? = some b := by
    rw [show '/' :: (L ++ [b]) = ('/' :: L) ++ [b] by simp, List.getLast?_concat]
  rw [this] at hlast
  cases hlast
  exact fun heq => hg (by rw [hb]; exact List.mem_append.mpr (Or.inr (heq ▸ List.mem_singleton_self _)))

lemma foldl_joinTwo {cs : List (List Char)} :
    ∀ acc : List Char, acc ≠ [] →
    (∀ h2, acc.getLast? = some h2 → ¬ (h2 = '/')) →
    (∀ g ∈ cs, g ≠ [] ∧ '/' ∉ g) →
    cs.foldl joinTwo acc = acc ++ glueAll cs := by
  induction cs with
  | nil =>
    intro acc _ _ _
    simp [glueAll]
  | cons g rest ih =>
    intro acc hne hlast hgood
    have hg := hgood g (List.mem_cons_self _ _)
    rw [List.foldl_cons, joinTwo_ordinary hne hlast hg.1 hg.2,
      ih (acc ++ '/' :: g) (by simp) (getLast?_append_cons_no_slash hg.1 hg.2)
        (fun x hx => hgood x (List.mem_cons.mpr (Or.inr hx)))]
    simp [glueAll]

lemma segList_nil_succ (j : Nat) : segList (j + 1) [] = [slashes (j + 1), []] := by
  unfold segList
  rw [if_neg (by omega : ¬ (j + 1 = 0)), if_pos rfl]

lemma segList_cons_zero (c0 : List Char) (cs0 : List (List Char)) :
    segList 0 (c0 :: cs0) = c0 :: cs0 := by
  unfold segList
  rw [if_pos rfl, if_neg (by simp)]

lemma segList_cons_succ (j : Nat) (c0 : List Char) (cs0 : List (List Char)) :
    segList (j + 1) (c0 :: cs0) = slashes (j + 1) :: c0 :: cs0 := by
  unfold segList
  rw [if_neg (by omega : ¬ (j + 1 = 0)), if_neg (by simp)]

lemma joinList_segList {k : Nat} {nc : List (List Char)}
    (hgood : ∀ g ∈ nc, g ≠ [] ∧ '/' ∉ g) :
    joinListChars (segList k nc) = renderNF k nc := by
  by_cases hnc : nc = []
  · subst hnc
    cases k with
    | zero => rfl
    | succ j =>
      rw [segList_nil_succ]
      have hj : joinListChars [slashes (j + 1), []] = joinTwo (slashes (j + 1)) [] := rfl
      rw [hj]
      unfold joinTwo
      rw [if_neg (by simp), if_pos (Or.inr (slashes_getLast j)), List.append_nil, renderNF_one]
  · cases hn : nc with
    | nil => exact absurd hn hnc
    | cons c0 cs0 =>
      have hgood2 : ∀ g ∈ c0 :: cs0, g ≠ [] ∧ '/' ∉ g := hn ▸ hgood
      have hc0 := hgood2 c0 (List.mem_cons_self _ _)
      have hcs0 : ∀ g ∈ cs0, g ≠ [] ∧ '/' ∉ g :=
        fun g hg => hgood2 g (List.mem_cons.mpr (Or.inr hg))
      have hrender : renderNF k (c0 :: cs0) = rawRender k (c0 :: cs0) :=
        renderNF_eq_raw (rawRender_ne_nil (by simp) hgood2)
      cases k with
      | zero =>
        rw [segList_cons_zero]
        have h1 : joinListChars (c0 :: cs0) = cs0.foldl joinTwo c0 := rfl
        rw [h1, foldl_joinTwo c0 hc0.1 (getLast?_no_slash hc0.2) hcs0,
          ← pyJoinStr_glue, hrender]
        unfold rawRender slashes
        simp
      | succ j =>
        rw [segList_cons_succ]
        have h1 : joinListChars (slashes (j + 1) :: c0 :: cs0) =
            cs0.foldl joinTwo (joinTwo (slashes (j + 1)) c0) := rfl
        have h2 : joinTwo (slashes (j + 1)) c0 = slashes (j + 1) ++ c0 := by
          unfold joinTwo
          rw [if_neg (head?_no_slash hc0.1 hc0.2), if_pos (Or.inr (slashes_getLast j))]
        rw [h1, h2, foldl_joinTwo _ (by simp [slashes_ne_nil j]) ?_ hcs0]
        · rw [List.append_assoc, ← pyJoinStr_glue, hrender]
          rfl
        · intro h2x hlastx
          rw [List.getLast?_append_of_ne_nil _ hc0.1] at hlastx
          exact getLast?_no_slash hc0.2 h2x hlastx

lemma renderNF_ne_nil (k : Nat) (nc : List (List Char)) : renderNF k nc ≠ [] := by
  unfold renderNF
  dsimp only
  split
  · simp
  · rename_i h
    exact h

lemma initSlashes_cons_ne {a : Char} (rest : List Char) (ha : ¬ (a = '/')) :
    initSlashes (a :: rest) = 0 := by
  unfold initSlashes
  rw [if_neg ?_]
  intro h
  have h1 : (a :: rest).take 1 = [a] := rfl
  rw [h1] at h
  simp only [List.cons.injEq, and_true] at h
  exact ha h

lemma initSlashes_one {a : Char} (rest : List Char) (ha : ¬ (a = '/')) :
    initSlashes ('/' :: a :: rest) = 1 := by
  unfold initSlashes
  rw [if_pos (by simp), if_neg ?_]
  rintro ⟨h2, _⟩
  have h1 : ('/' :: a :: rest).take 2 = ['/', a] := rfl
  rw [h1] at h2
  simp only [List.cons.injEq, true_and, and_true] at h2
  exact ha h2

lemma initSlashes_two {a : Char} (rest : List Char) (ha : ¬ (a = '/')) :
    initSlashes ('/' :: '/' :: a :: rest) = 2 := by
  unfold initSlashes
  rw [if_pos (by simp), if_pos ?_]
  constructor
  · simp
  · intro h3
    have h1 : ('/' :: '/' :: a :: rest).take 3 = ['/', '/', a] := rfl
    rw [h1] at h3
    simp only [List.cons.injEq, true_and, and_true] at h3
    exact ha h3

lemma initSlashes_render {k : Nat} {nc : List (List Char)} (hk : k ≤ 2)
    (hgood : ∀ g ∈ nc, g ≠ [] ∧ '/' ∉ g) :
    initSlashes (renderNF k nc) = k := by
  by_cases hnc : nc = []
  · subst hnc
    match k, hk with
    | 0, _ => rfl
    | 1, _ => rfl
    | 2, _ => rfl
  · cases hn : nc with
    | nil => exact absurd hn hnc
    | cons c0 cs0 =>
      have hgood2 : ∀ g ∈ c0 :: cs0, g ≠ [] ∧ '/' ∉ g := hn ▸ hgood
      have hc0 := hgood2 c0 (List.mem_cons_self _ _)
      have hrender : renderNF k (c0 :: cs0) = rawRender k (c0 :: cs0) :=
        renderNF_eq_raw (rawRender_ne_nil (by simp) hgood2)
      obtain ⟨t, ht⟩ := pyJoinStr_cons_exists c0 cs0
      cases hcc : c0 with
      | nil => exact absurd hcc hc0.1
      | cons a c0' =>
        have ha : ¬ (a = '/') := fun h => hc0.2 (by rw [hcc]; exact h ▸ List.mem_cons_self _ _)
        rw [hcc] at hrender ht
        rw [hrender]
        unfold rawRender
        rw [ht]
        match k, hk with
        | 0, _ =>
          show initSlashes ([] ++ (a :: c0') ++ t) = 0
          rw [List.nil_append, List.cons_append]
          exact initSlashes_cons_ne _ ha
        | 1, _ =>
          show initSlashes (['/'] ++ (a :: c0') ++ t) = 1
          rw [List.cons_append, List.nil_append, List.cons_append]
          exact initSlashes_one _ ha
        | 2, _ =>
          show initSlashes ('/' :: '/' :: a :: (c0' ++ t)) = 2
          exact initSlashes_two _ ha

lemma splitSlash_slashes_append (k : Nat) (x : List Char) :
    splitSlash (slashes k ++ x) = List.replicate k [] ++ splitSlash x := by
  induction k with
  | zero => simp [slashes]
  | succ j ih =>
    have h1 : slashes (j + 1) ++ x = ('/' :: slashes j) ++ x := by
      unfold slashes
      rw [List.replicate_succ]
    have h2 : splitSlash ('/' :: (slashes j ++ x)) = [] :: splitSlash (slashes j ++ x) :=
      splitSlash_append_slash _ (List.not_mem_nil _)
    rw [h1, List.cons_append, h2, ih, List.replicate_succ, List.cons_append]

lemma foldl_normStep_empties (k j : Nat) (acc : List (List Char)) :
    (List.replicate j ([] : List Char)).foldl (normStep k) acc = acc := by
  induction j with
  | zero => rfl
  | succ j2 ih =>
    rw [List.replicate_succ, List.foldl_cons]
    have : normStep k acc [] = acc := by
      unfold normStep
      rw [if_pos (Or.inl rfl)]
    rw [this, ih]

lemma foldl_normStep_dd (m : Nat) : ∀ macc : Nat,
    (List.replicate m (['.', '.'] : List Char)).foldl (normStep 0)
        (List.replicate macc ['.', '.']) =
      List.replicate (macc + m) ['.', '.'] := by
  induction m with
  | zero => intro macc; simp
  | succ m2 ih =>
    intro macc
    rw [List.replicate_succ, List.foldl_cons]
    have hstep : normStep 0 (List.replicate macc (['.', '.'] : List Char)) ['.', '.'] =
        List.replicate (macc + 1) ['.', '.'] := by
      unfold normStep
      rw [if_neg (by simp), if_pos ?_, ← List.replicate_succ']
      cases macc with
      | zero => exact Or.inr (Or.inl ⟨rfl, rfl⟩)
      | succ m3 =>
        refine Or.inr (Or.inr ?_)
        rw [List.replicate_succ', List.getLast?_concat]
    rw [hstep, ih (macc + 1)]
    congr 1
    omega

lemma foldl_normStep_clean {k : Nat} {rest : List (List Char)} :
    ∀ acc, ['.', '.'] ∉ rest → (∀ g ∈ rest, GoodComp g) →
    rest.foldl (normStep k) acc = acc ++ rest := by
  induction rest with
  | nil => intro acc _ _; simp
  | cons g r ih =>
    intro acc hdd hgood
    have hg := hgood g (List.mem_cons_self _ _)
    have hgdd : g ≠ ['.', '.'] := fun h => hdd (h ▸ List.mem_cons_self _ _)
    have hstep : normStep k acc g = acc ++ [g] := by
      unfold normStep
      rw [if_neg (by rintro (h | h); exacts [hg.1 h, hg.2.1 h]), if_pos (Or.inl hgdd)]
    rw [List.foldl_cons, hstep,
      ih (acc ++ [g]) (fun h => hdd (List.mem_cons.mpr (Or.inr h)))
        (fun x hx => hgood x (List.mem_cons.mpr (Or.inr hx)))]
    simp

lemma normComps_render {k : Nat} {nc : List (List Char)} (hNF : NF k nc) :
    normComps k (renderNF k nc) = nc := by
  obtain ⟨hgood0, m, rest, hdecomp, hdd, hk⟩ := hNF
  have hgood : ∀ g ∈ nc, g ≠ [] ∧ '/' ∉ g :=
    fun g hg => ⟨(hgood0 g hg).1, (hgood0 g hg).2.2⟩
  by_cases hnc : nc = []
  · subst hnc
    cases k with
    | zero => rfl
    | succ j =>
      rw [renderNF_one]
      unfold normComps
      have h1 : slashes (j + 1) = slashes (j + 1) ++ [] := by simp
      rw [h1, splitSlash_slashes_append]
      have h2 : splitSlash [] = [[]] := rfl
      rw [h2, List.foldl_append, foldl_normStep_empties]
      have h3 : normStep (j + 1) [] [] = [] := by
        unfold normStep
        rw [if_pos (Or.inl rfl)]
      simp [h3]
  · have hrender : renderNF k nc = rawRender k nc :=
      renderNF_eq_raw (rawRender_ne_nil hnc hgood)
    rw [hrender]
    unfold rawRender normComps
    rw [splitSlash_slashes_append, splitSlash_pyJoinStr hnc (fun g hg => (hgood g hg).2),
      List.foldl_append, foldl_normStep_empties]
    by_cases hk0 : k = 0
    · subst hk0
      rw [hdecomp, List.foldl_append]
      have h1 := foldl_normStep_dd m 0
      simp only [List.replicate, Nat.zero_add] at h1
      rw [h1]
      exact foldl_normStep_clean _ hdd
        (fun g hg => hgood0 g (by rw [hdecomp]; exact List.mem_append.mpr (Or.inr hg)))
    · have hm := hk hk0
      subst hm
      rw [List.replicate] at hdecomp
      rw [List.nil_append] at hdecomp
      subst hdecomp
      rw [foldl_normStep_clean _ hdd hgood0]
      simp

lemma normChars_render_self {k : Nat} {nc : List (List Char)} (hk : k ≤ 2) (hNF : NF k nc) :
    normChars (renderNF k nc) = renderNF k nc := by
  have hgood : ∀ g ∈ nc, g ≠ [] ∧ '/' ∉ g :=
    fun g hg => ⟨(hNF.1 g hg).1, (hNF.1 g hg).2.2⟩
  unfold normChars
  rw [if_neg (renderNF_ne_nil k nc), initSlashes_render hk hgood, normComps_render hNF]

lemma split_join_chars (l : List Char) :
    joinListChars (split_path_chars l) = normChars l := by
  obtain ⟨k, nc, heq, hk, hNF⟩ := normChars_spec l
  have hgood : ∀ g ∈ nc, g ≠ [] ∧ '/' ∉ g :=
    fun g hg => ⟨(hNF.1 g hg).1, (hNF.1 g hg).2.2⟩
  rw [split_path_chars_eq, heq, splitFolders_render hgood, joinList_segList hgood]

lemma normChars_idem (l : List Char) : normChars (normChars l) = normChars l := by
  obtain ⟨k, nc, heq, hk, hNF⟩ := normChars_spec l
  rw [heq, normChars_render_self hk hNF]

lemma pyJoinList_map_mk (gs : List (List Char)) :
    pyJoinList (gs.map (fun l => (⟨l⟩ : String))) = ⟨joinListChars gs⟩ := by
  cases gs with
  | nil => rfl
  | cons h0 t =>
    suffices hsuff : ∀ (t : List (List Char)) (h0 : List Char),
        (t.map (fun l => (⟨l⟩ : String))).foldl pyJoin ⟨h0⟩ = ⟨t.foldl joinTwo h0⟩ by
      exact hsuff t h0
    intro t
    induction t with
    | nil => intro h0; rfl
    | cons g t2 ih =>
      intro h0
      rw [List.map_cons, List.foldl_cons, List.foldl_cons]
      have hstep : pyJoin ⟨h0⟩ ⟨g⟩ = ⟨joinTwo h0 g⟩ := rfl
      rw [hstep, ih]

/-- C9: `split_path` is invertible against joining — for every path, joining
all returned segments in order with the separator reproduces the normalized
path, and equally so when `split_path` is applied to the already-normalized
path (since `split_path` normalizes first and normalization is idempotent).
Proved for the POSIX `os.path`, where `splitdrive` always yields an empty
drive; a drive-like prefix such as `C:` is an ordinary first segment there
and is kept as such. -/
theorem split_path_roundtrip (P : String) :
    pyJoinList (split_path P) = pyNormpath P ∧
    pyJoinList (split_path (pyNormpath P)) = pyNormpath P := by
  have main : ∀ Q : String, pyJoinList (split_path Q) = pyNormpath Q := by
    intro Q
    unfold split_path pyNormpath
    rw [pyJoinList_map_mk, split_join_chars]
  refine ⟨main P, ?_⟩
  rw [main (pyNormpath P)]
  show (⟨normChars (pyNormpath P).toList⟩ : String) = pyNormpath P
  have h1 : (pyNormpath P).toList = normChars P.toList := rfl
  rw [h1, normChars_idem]
  rfl

/-! ## Claim C3: core modules and the shape of the public output -/

lemma returnIfFile_exact_inv {p f : String} {fs : FS}
    (h : returnIfFile (some p) none fs = some f) : f = p ∧ fs.isfile p = true := by
  unfold returnIfFile at h
  split at h
  · exact absurd h (by simp)
  · dsimp only at h
    have hfile : pyTruthy (none : Option String) = false := rfl
    rw [hfile] at h
    simp only [Bool.false_eq_true, if_false, Option.getD_some] at h
    split at h
    · rename_i hf
      cases h
      exact ⟨rfl, hf⟩
    · exact absurd h (by simp)

lemma returnIfFile_sub_inv {p sub f : String} {fs : FS} (hsub : sub ≠ "")
    (h : returnIfFile (some p) (some sub) fs = some f) :
    f = pyJoin p sub ∧ fs.isfile f = true := by
  unfold returnIfFile at h
  split at h
  · exact absurd h (by simp)
  · dsimp only at h
    rw [pyTruthy_some hsub] at h
    simp only [if_true, Option.getD_some] at h
    split at h
    · rename_i hf
      cases h
      exact ⟨rfl, hf⟩
    · exact absurd h (by simp)

lemma strAppend_ne_empty {a : String} (b : String) (ha : a ≠ "") : a ++ b ≠ "" := by
  rw [string_ne_empty_iff] at ha ⊢
  intro habs
  have habs2 : a.data ++ b.data = [] := by
    rw [← String.data_append]
    exact habs
  rcases List.append_eq_nil.mp habs2 with ⟨h1, _⟩
  exact ha h1

lemma strAppend_abs {a : String} (b : String) (ha : pyStartswith a "/" = true) :
    pyStartswith (a ++ b) "/" = true := by
  rw [pyStartswith_slash_iff] at ha ⊢
  have hd : (a ++ b).toList = a.toList ++ b.toList := String.data_append a b
  rw [hd]
  cases hl : a.toList with
  | nil => rw [hl] at ha; exact absurd ha (by simp)
  | cons c r =>
    rw [hl] at ha
    simp only [List.head?_cons] at ha ⊢
    exact ha

lemma pyJoin_abs {a : String} (b : String) (ha : pyStartswith a "/" = true) :
    pyStartswith (pyJoin a b) "/" = true := by
  rw [pyStartswith_slash_iff] at ha ⊢
  rw [pyJoin_toList]
  unfold joinTwo
  split
  · rename_i hb
    exact hb
  · have hcons : ∃ c r, a.toList = c :: r ∧ c = '/' := by
      cases hl : a.toList with
      | nil => rw [hl] at ha; exact absurd ha (by simp)
      | cons c r =>
        rw [hl] at ha
        simp only [List.head?_cons, Option.some.injEq] at ha
        exact ⟨c, r, rfl, ha⟩
    obtain ⟨c, r, hl, hc⟩ := hcons
    split
    · rw [hl]
      simp [hc]
    · rw [hl]
      simp [hc]

lemma initSlashes_pos {l : List Char} (h : l.head? = some '/') : 1 ≤ initSlashes l := by
  cases l with
  | nil => exact absurd h (by simp)
  | cons c r =>
    simp only [List.head?_cons, Option.some.injEq] at h
    subst h
    unfold initSlashes
    rw [if_pos (show List.take 1 ('/' :: r) = ['/'] from rfl)]
    split <;> omega

lemma renderNF_abs {k : Nat} (hk : 1 ≤ k) (nc : List (List Char)) :
    (renderNF k nc).head? = some '/' := by
  cases k with
  | zero => omega
  | succ j =>
    unfold renderNF
    dsimp only
    have hout : slashes (j + 1) ++ pyJoinStr nc = '/' :: (slashes j ++ pyJoinStr nc) := by
      unfold slashes
      rw [List.replicate_succ, List.cons_append]
    rw [hout]
    rw [if_neg (by simp)]
    rfl

lemma pyNormpath_abs {s : String} (hs : pyStartswith s "/" = true) :
    pyStartswith (pyNormpath s) "/" = true := by
  rw [pyStartswith_slash_iff] at hs ⊢
  have hne : s.toList ≠ [] := by
    intro habs
    rw [habs] at hs
    exact absurd hs (by simp)
  show (normChars s.toList).head? = some '/'
  unfold normChars
  rw [if_neg hne]
  exact renderNF_abs (initSlashes_pos hs) _

lemma load_as_file_sound {path : String} {ctx : Settings} {fs : FS} {q : String}
    (h : load_as_file path ctx fs = some q) :
    fs.isfile q = true ∧ (pyStartswith path "/" = true → pyStartswith q "/" = true) := by
  unfold load_as_file at h
  split at h
  · rename_i f hf
    cases h
    obtain ⟨heq, hfile⟩ := returnIfFile_exact_inv hf
    subst heq
    exact ⟨hfile, fun habs => habs⟩
  · obtain ⟨e, _, hf⟩ := List.exists_of_findSome?_eq_some h
    obtain ⟨heq, hfile⟩ := returnIfFile_exact_inv hf
    subst heq
    exact ⟨hfile, fun habs => strAppend_abs e habs⟩

lemma load_index_sound {path : String} {ctx : Settings} {fs : FS} {q : String}
    (h : load_index path ctx fs = some q) :
    fs.isfile q = true ∧ (pyStartswith path "/" = true → pyStartswith q "/" = true) := by
  unfold load_index at h
  obtain ⟨e, _, hf⟩ := List.exists_of_findSome?_eq_some h
  obtain ⟨heq, hfile⟩ := returnIfFile_sub_inv (strAppend_ne_empty e (by decide)) hf
  subst heq
  exact ⟨hfile, fun habs => pyJoin_abs _ habs⟩

lemma load_as_directory_sound {path : String} {ctx : Settings} {fs : FS} {q : String}
    (h : load_as_directory path ctx fs = Except.ok (some q)) :
    fs.isfile q = true ∧ (pyStartswith path "/" = true → pyStartswith q "/" = true) := by
  unfold load_as_directory at h
  split at h
  · split at h
    · exact absurd h (by simp)
    · rename_i mf hmf
      dsimp only at h
      have h2 := Except.ok.inj h
      cases hlf : load_as_file (pyJoin path (mf.getD "index.js")) ctx fs with
      | some f =>
        rw [hlf] at h2
        simp only [Option.orElse] at h2
        cases h2
        obtain ⟨hfile, habs⟩ := load_as_file_sound hlf
        exact ⟨hfile, fun hp => habs (pyJoin_abs _ hp)⟩
      | none =>
        rw [hlf] at h2
        simp only [Option.orElse] at h2
        obtain ⟨hfile, habs⟩ := load_index_sound h2
        exact ⟨hfile, fun hp => habs (pyJoin_abs _ hp)⟩
  · have h2 := Except.ok.inj h
    exact load_index_sound h2

lemma lnm_loop_sound {module : String} {ctx : Settings} {fs : FS} {dirs : List String}
    {q : String} (h : lnm_loop module ctx fs dirs = Except.ok (some q)) :
    fs.isfile q = true ∧
      ((∀ d ∈ dirs, pyStartswith d "/" = true) → pyStartswith q "/" = true) := by
  induction dirs with
  | nil => exact absurd h (by simp [lnm_loop])
  | cons d rest ih =>
    rw [lnm_loop] at h
    split at h
    · rename_i f hf
      cases h
      obtain ⟨hfile, habs⟩ := load_as_file_sound hf
      exact ⟨hfile, fun hd => habs (pyJoin_abs _ (hd d (List.mem_cons_self _ _)))⟩
    · split at h
      · exact absurd h (by simp)
      · rename_i f hdir
        cases h
        obtain ⟨hfile, habs⟩ := load_as_directory_sound hdir
        exact ⟨hfile, fun hd => habs (pyJoin_abs _ (hd d (List.mem_cons_self _ _)))⟩
      · obtain ⟨hfile, habs⟩ := ih h
        exact ⟨hfile, fun hd => habs (fun x hx => hd x (List.mem_cons.mpr (Or.inr hx)))⟩

lemma slashes_str_abs (j : Nat) : pyStartswith (⟨slashes (j + 1)⟩ : String) "/" = true := by
  rw [pyStartswith_slash_iff]
  show (slashes (j + 1)).head? = some '/'
  unfold slashes
  rw [List.replicate_succ]
  rfl

lemma split_path_abs_head {start : String} (h : pyStartswith start "/" = true) :
    ∃ hd tl, split_path start = hd :: tl ∧ pyStartswith hd "/" = true := by
  have h2 := pyStartswith_slash_iff.mp h
  have hne : start.toList ≠ [] := by
    intro habs
    rw [habs] at h2
    exact absurd h2 (by simp)
  have hk := initSlashes_pos h2
  obtain ⟨j, hj⟩ : ∃ j, initSlashes start.toList = j + 1 := by
    cases hks : initSlashes start.toList with
    | zero => rw [hks] at hk; omega
    | succ j2 => exact ⟨j2, rfl⟩
  have hNF := normComps_NF (initSlashes start.toList) start.toList
  have hgood : ∀ g ∈ normComps (initSlashes start.toList) start.toList, g ≠ [] ∧ '/' ∉ g :=
    fun g hg => ⟨(hNF.1 g hg).1, (hNF.1 g hg).2.2⟩
  have hnorm : normChars start.toList =
      renderNF (initSlashes start.toList)
        (normComps (initSlashes start.toList) start.toList) := by
    unfold normChars
    rw [if_neg hne]
  unfold split_path
  rw [split_path_chars_eq, hnorm, splitFolders_render hgood, hj]
  unfold segList
  rw [if_neg (by omega : ¬ (j + 1 = 0))]
  by_cases hnc : normComps (j + 1) start.toList = []
  · rw [if_pos hnc]
    exact ⟨⟨slashes (j + 1)⟩, [⟨[]⟩], rfl, slashes_str_abs j⟩
  · rw [if_neg hnc]
    exact ⟨⟨slashes (j + 1)⟩, (normComps (j + 1) start.toList).map (fun l => ⟨l⟩),
      List.map_cons _ _ _, slashes_str_abs j⟩

lemma foldl_pyJoin_abs : ∀ (t : List String) (acc : String), pyStartswith acc "/" = true →
    pyStartswith (t.foldl pyJoin acc) "/" = true := by
  intro t
  induction t with
  | nil => exact fun acc hacc => hacc
  | cons g t2 ih =>
    intro acc hacc
    rw [List.foldl_cons]
    exact ih _ (pyJoin_abs g hacc)

lemma pyJoinList_cons_abs {hd : String} (tl : List String) (h : pyStartswith hd "/" = true) :
    pyStartswith (pyJoinList (hd :: tl)) "/" = true :=
  foldl_pyJoin_abs tl hd h

lemma nmAux_abs {hd : String} {tl : List String} (hhd : pyStartswith hd "/" = true) :
    ∀ (i : Nat), ∀ d ∈ nmAux (hd :: tl) i, pyStartswith d "/" = true := by
  intro i
  induction i with
  | zero =>
    intro d hdmem
    simp only [nmAux, pyStringIs, Bool.false_eq_true, if_false, List.mem_singleton] at hdmem
    subst hdmem
    exact pyJoinList_cons_abs _ hhd
  | succ i ih =>
    intro d hdmem
    simp only [nmAux, pyStringIs, Bool.false_eq_true, if_false, List.cons_append,
      List.nil_append, List.mem_cons] at hdmem
    rcases hdmem with hdm | hdm
    · subst hdm
      have htake : (hd :: tl).take (i + 2) ++ ["node_modules"] =
          hd :: (tl.take (i + 1) ++ ["node_modules"]) := by
        rw [List.take_succ_cons, List.cons_append]
      rw [htake]
      exact pyJoinList_cons_abs _ hhd
    · exact ih d hdm

lemma node_modules_paths_abs {start : String} (h : pyStartswith start "/" = true) :
    ∀ d ∈ node_modules_paths start, pyStartswith d "/" = true := by
  obtain ⟨hd, tl, heq, hhd⟩ := split_path_abs_head h
  intro d hdmem
  unfold node_modules_paths at hdmem
  simp only [heq] at hdmem
  exact nmAux_abs hhd _ d hdmem

lemma find_require_module_sound {module file_path : String} {ctx : Settings} {fs : FS}
    {q : String} (h : find_require_module module file_path ctx fs = Except.ok (some q)) :
    (module ∈ CORE_MODULES ∧ q = module) ∨
    (fs.isfile q = true ∧
      (pyStartswith file_path "/" = true → pyStartswith q "/" = true)) := by
  unfold find_require_module at h
  split at h
  · rename_i hcore
    left
    exact ⟨hcore, (Option.some.inj (Except.ok.inj h)).symm⟩
  · split at h
    · right
      dsimp only at h
      split at h
      · rename_i f hf
        obtain rfl : f = q := Option.some.inj (Except.ok.inj h)
        obtain ⟨hfile, habs⟩ := load_as_file_sound hf
        exact ⟨hfile, fun hp => habs (pyNormpath_abs (pyJoin_abs module hp))⟩
      · obtain ⟨hfile, habs⟩ := load_as_directory_sound h
        exact ⟨hfile, fun hp => habs (pyNormpath_abs (pyJoin_abs module hp))⟩
    · right
      unfold load_node_modules at h
      obtain ⟨hfile, habs⟩ := lnm_loop_sound h
      exact ⟨hfile, fun hp => habs (node_modules_paths_abs hp)⟩

/-- C3: for a specifier in `CORE_MODULES`, top-level resolution
(`find_require_module`, §4.8's orchestrator) returns exactly that string,
and the result is the same for every filesystem — no filesystem access can
influence it.  Moreover every successful output is either the literal
core-module name or an existing file, absolute whenever the requesting
directory is absolute, and the only other outcome is the not-found
sentinel. -/
theorem find_require_module_core_and_output (module file_path : String) (ctx : Settings) (fs : FS) :
    (module ∈ CORE_MODULES →
      find_require_module module file_path ctx fs = Except.ok (some module) ∧
      ∀ fs2 : FS, find_require_module module file_path ctx fs2 =
        find_require_module module file_path ctx fs) ∧
    (∀ q, find_require_module module file_path ctx fs = Except.ok (some q) →
      (module ∈ CORE_MODULES ∧ q = module) ∨
      (fs.isfile q = true ∧
        (pyStartswith file_path "/" = true → pyStartswith q "/" = true))) := by
  constructor
  · intro hcore
    have hval : ∀ fs2 : FS, find_require_module module file_path ctx fs2 =
        Except.ok (some module) := by
      intro fs2
      unfold find_require_module
      rw [if_pos hcore]
    exact ⟨hval fs, fun fs2 => (hval fs2).trans (hval fs).symm⟩
  · exact fun q h => find_require_module_sound h

/-- Filesystem used by the C3 witness. -/
def fsC3 : FS := ⟨fun p => p == "/a/node_modules/x.js", fun _ => JsonContent.obj none⟩

/-- Witness for C3 at concrete inputs: the core module `fs` resolves to
itself on a filesystem that does not contain it, and a successful non-core
resolution is classified as an existing absolute file. -/
theorem find_require_module_core_and_output_witness :
    find_require_module "fs" "/a" ctx0 fsC3 = Except.ok (some "fs") ∧
    ((("x" ∈ CORE_MODULES) ∧ "/a/node_modules/x.js" = "x") ∨
      (fsC3.isfile "/a/node_modules/x.js" = true ∧
        (pyStartswith "/a" "/" = true →
          pyStartswith "/a/node_modules/x.js" "/" = true))) :=
  ⟨((find_require_module_core_and_output "fs" "/a" ctx0 fsC3).1 (by decide)).1,
   (find_require_module_core_and_output "x" "/a" ctx0 fsC3).2 "/a/node_modules/x.js" (by rfl)⟩
